import Mathlib

/-!
Shallow embedding of the skiplist-based information-retrieval system in
`src/v1.py`, together with a verification of its key properties.

The Python pointer structure is embedded as an arena: `SkipList.nodes` is the
list of all allocated nodes, a node reference is an index into that list, and
index `0` is the `header` sentinel.  `random.random()` draws are modelled as an
explicit stream `draws : Nat → ℚ` of values, consumed by `random_level` exactly
as the Python loop consumes calls to `random.random()`.  The unbounded Python
`while` loops over forward pointers are given the fuel `s.nodes.length`, which
is shown to be sufficient in every well-formed state.
-/

/-- One skiplist node (`SkipListNode.__init__` in the source): a key (the
header carries `none`, real nodes carry `some term`), a forward-pointer array
with one slot per level `0..level`, and the postings set of the node. -/
structure SkipListNode where
  key : Option String
  forward : List (Option Nat)
  value : Finset Nat

/-- The skiplist state (`SkipList.__init__`): configuration, the node arena
(index 0 is the header sentinel) and the current highest occupied level. -/
structure SkipList where
  max_level : Nat
  probability : ℚ
  nodes : List SkipListNode
  level : Nat

/-- `SkipList(max_level, probability)`: a fresh skiplist whose arena holds only
the header node `SkipListNode(None, max_level)`.  The source performs no
validation of either configuration parameter. -/
def SkipList.init (max_level : Nat) (probability : ℚ) : SkipList :=
  { max_level := max_level
    probability := probability
    nodes := [{ key := none, forward := List.replicate (max_level + 1) none, value := ∅ }]
    level := 0 }

/-- Forward pointer of node `i` at level `lvl` in a raw arena (out-of-range
reads, which cannot occur in reachable states, yield `none`). -/
def fwdL (nodes : List SkipListNode) (i lvl : Nat) : Option Nat :=
  match nodes.get? i with
  | none => none
  | some n => n.forward.getD lvl none

/-- Key of node `i` in a raw arena. -/
def keyL (nodes : List SkipListNode) (i : Nat) : Option String :=
  match nodes.get? i with
  | none => none
  | some n => n.key

/-- Postings set of node `i` in a raw arena. -/
def valueL (nodes : List SkipListNode) (i : Nat) : Finset Nat :=
  match nodes.get? i with
  | none => ∅
  | some n => n.value

/-- Length of the forward array of node `i` (the node's level plus one). -/
def lenL (nodes : List SkipListNode) (i : Nat) : Nat :=
  match nodes.get? i with
  | none => 0
  | some n => n.forward.length

/-- Forward pointer of node `i` at level `lvl`. -/
def SkipList.fwd (s : SkipList) (i lvl : Nat) : Option Nat := fwdL s.nodes i lvl

/-- Key of node `i`. -/
def SkipList.keyAt (s : SkipList) (i : Nat) : Option String := keyL s.nodes i

/-- Postings set of node `i`. -/
def SkipList.valueAt (s : SkipList) (i : Nat) : Finset Nat := valueL s.nodes i

/-- Forward-array length of node `i`. -/
def SkipList.nodeLen (s : SkipList) (i : Nat) : Nat := lenL s.nodes i

/-- Key of node `i` with the (never relevant for real nodes) default `""`. -/
def keyD (s : SkipList) (i : Nat) : String := (s.keyAt i).getD ""

/-- The loop of `random_level`: `while random.random() < self.probability and
level < self.max_level: level += 1`.  `k` indexes the draw stream, `rem` is
`max_level - level`, so the loop guard `level < max_level` is `rem > 0`. -/
def random_level_go (p : ℚ) (draws : Nat → ℚ) : Nat → Nat → Nat → Nat
  | _, level, 0 => level
  | k, level, rem + 1 =>
    if draws k < p then random_level_go p draws (k + 1) (level + 1) rem else level

/-- `SkipList.random_level` of the source, with the stream of
`random.random()` results passed in explicitly. -/
def SkipList.random_level (s : SkipList) (draws : Nat → ℚ) : Nat :=
  random_level_go s.probability draws 0 0 s.max_level

/-- The inner `while` loop of the descent (`while current.forward[i] is not
None and current.forward[i].key < word: current = current.forward[i]`),
supplied with enough fuel at every call site. -/
def advance (s : SkipList) (lvl : Nat) (word : String) : Nat → Nat → Nat
  | 0, cur => cur
  | fuel + 1, cur =>
    match s.fwd cur lvl with
    | none => cur
    | some nxt =>
      match s.keyAt nxt with
      | none => cur
      | some k => if k < word then advance s lvl word fuel nxt else cur

/-- The descent loop of `search_word`: `for i in range(self.level, -1, -1)`,
returning the final `current` cursor (the level-0 predecessor position). -/
def searchDescend (s : SkipList) (word : String) : Nat → Nat → Nat
  | cur, 0 => advance s 0 word s.nodes.length cur
  | cur, i + 1 => searchDescend s word (advance s (i + 1) word s.nodes.length cur) i

/-- The descent loop of `insert_word`, returning the recorded `update` vector:
element `i` of the result is `update[i]`, for `i = 0 .. ` the starting level. -/
def descend (s : SkipList) (word : String) : Nat → Nat → List Nat
  | cur, 0 => [advance s 0 word s.nodes.length cur]
  | cur, i + 1 =>
    let c := advance s (i + 1) word s.nodes.length cur
    descend s word c i ++ [c]

/-- `SkipList.search_word`: descend, step to the level-0 successor, and return
its postings when its key equals `word`, the empty set otherwise. -/
def SkipList.search_word (s : SkipList) (word : String) : Finset Nat :=
  let cur := searchDescend s word 0 s.level
  match s.fwd cur 0 with
  | none => ∅
  | some nxt => if s.keyAt nxt = some word then s.valueAt nxt else ∅

/-- `current.value.add(document)` on node `i` of the arena. -/
def addDoc (nodes : List SkipListNode) (i doc : Nat) : List SkipListNode :=
  match nodes.get? i with
  | none => nodes
  | some n => nodes.set i { n with value := insert doc n.value }

/-- Assignment `nodes[i].forward[lvl] = v`. -/
def setFwd (nodes : List SkipListNode) (i lvl : Nat) (v : Option Nat) : List SkipListNode :=
  match nodes.get? i with
  | none => nodes
  | some n => nodes.set i { n with forward := n.forward.set lvl v }

/-- One iteration of the splice loop of `insert_word`:
`new_node.forward[i] = update[i].forward[i]; update[i].forward[i] = new_node`. -/
def spliceStep (nodes : List SkipListNode) (u newIdx lvl : Nat) : List SkipListNode :=
  let f := fwdL nodes u lvl
  setFwd (setFwd nodes newIdx lvl f) u lvl (some newIdx)

/-- The splice loop `for i in range(new_level + 1)` of `insert_word`, starting
at level `i` with `rem` iterations left. -/
def splice (ups : Nat → Nat) (newIdx : Nat) : Nat → Nat → List SkipListNode → List SkipListNode
  | _, 0, nodes => nodes
  | i, rem + 1, nodes => splice ups newIdx (i + 1) rem (spliceStep nodes (ups i) newIdx i)

/-- The freshly allocated node: `SkipListNode(word, new_level)` followed by
`new_node.value.add(document)`. -/
def newNode (word : String) (document new_level : Nat) : SkipListNode :=
  { key := some word, forward := List.replicate (new_level + 1) none, value := {document} }

/-- The full `update` vector as a function on levels: the recorded descent
vector for levels `0..self.level` and `self.header` (index 0) above. -/
def ups2F (s : SkipList) (ups : List Nat) : Nat → Nat :=
  fun i => if i ≤ s.level then ups.getD i 0 else 0

/-- The node-creation branch of `insert_word`: allocate
`SkipListNode(word, new_level)` with postings `{document}` at the end of the
arena, raise `self.level` to `new_level` if needed, and splice the new node
into the forward chains of levels `0..new_level`.  `ups` is the recorded
`update` vector for levels `0..self.level`; `update[i] = self.header` for the
raised levels above `self.level`. -/
def SkipList.insert_new (s : SkipList) (word : String) (document new_level : Nat)
    (ups : List Nat) : SkipList :=
  { s with
    nodes := splice (ups2F s ups) s.nodes.length 0 (new_level + 1)
      (s.nodes ++ [newNode word document new_level])
    level := max s.level new_level }

/-- `SkipList.insert_word`.  The descent records the `update` vector; if the
level-0 successor already carries `word` its postings are extended (`if
current is not None and current.key == word`), otherwise a node is allocated
at the drawn level and spliced in. -/
def SkipList.insert_word (s : SkipList) (word : String) (document : Nat)
    (draws : Nat → ℚ) : SkipList :=
  let ups := descend s word 0 s.level
  match s.fwd (ups.headD 0) 0 with
  | some nxt =>
    if s.keyAt nxt = some word then { s with nodes := addDoc s.nodes nxt document }
    else s.insert_new word document (s.random_level draws) ups
  | none => s.insert_new word document (s.random_level draws) ups

/-- A finite sequence of `insert_word` calls, each with its own draw stream. -/
def SkipList.insertSeq (s : SkipList) : List (String × Nat × (Nat → ℚ)) → SkipList
  | [] => s
  | e :: rest => (s.insert_word e.1 e.2.1 e.2.2).insertSeq rest

/-- The collection loop of `range_search`: `while current is not None and
current.key <= end_word: if current.key >= start_word: collect; advance`. -/
def collectRange (s : SkipList) (start_word end_word : String) : Nat → Option Nat → Finset Nat
  | 0, _ => ∅
  | _ + 1, none => ∅
  | fuel + 1, some cur =>
    match s.keyAt cur with
    | none => ∅
    | some k =>
      if k ≤ end_word then
        (if start_word ≤ k then s.valueAt cur else ∅) ∪
          collectRange s start_word end_word fuel (s.fwd cur 0)
      else ∅

/-- `SkipList.range_search`: descend with `start_word`, then walk the level-0
chain collecting the union of postings of the nodes whose key is in range. -/
def SkipList.range_search (s : SkipList) (start_word end_word : String) : Finset Nat :=
  let cur := searchDescend s start_word 0 s.level
  collectRange s start_word end_word s.nodes.length (s.fwd cur 0)

/-- Characters kept by `re.sub(r'[^a-z0-9]', '', word)`. -/
def is_keep_char (c : Char) : Bool :=
  (('a' ≤ c && c ≤ 'z') || ('0' ≤ c && c ≤ '9'))

/-- `re.sub(r'[^a-z0-9]', '', w)`: strip every character outside `[a-z0-9]`. -/
def clean_word (w : String) : String := String.mk (w.data.filter is_keep_char)

/-- Python `str.lower()`. -/
def lower_str (t : String) : String := String.mk (t.data.map Char.toLower)

/-- Helper for `py_split`: scan the characters, `acc` holding the (reversed)
current candidate token. -/
def split_ws_go : List Char → List Char → List String
  | [], acc => if acc.isEmpty then [] else [String.mk acc.reverse]
  | c :: rest, acc =>
    if c.isWhitespace then
      (if acc.isEmpty then split_ws_go rest []
       else String.mk acc.reverse :: split_ws_go rest [])
    else split_ws_go rest (c :: acc)

/-- Python `str.split()` with no argument: split on whitespace runs, never
producing empty tokens. -/
def py_split (t : String) : List String := split_ws_go t.data []

/-- The indexing loop body of `load_documents`: for each word of
`content.lower().split()`, clean it and (when nonempty) insert it.  This is the
list of words, in order, for which `insert_word(clean_word, doc_id)` is
called. -/
def index_tokens : List String → List String
  | [] => []
  | w :: ws =>
    let cw := clean_word w
    if cw = "" then index_tokens ws else cw :: index_tokens ws

/-- The arguments of the `insert_word` calls made while indexing `content`:
one call per occurrence of each nonempty cleaned word. -/
def index_calls (content : String) : List String :=
  index_tokens (py_split (lower_str content))

/-- Indexing one document (the per-line body of `load_documents`): insert every
cleaned word occurrence of `content` with key `doc_id`.  `draws k` is the draw
stream consumed by the `k`-th insertion. -/
def SkipList.index_document (s : SkipList) (doc_id : Nat) (content : String)
    (draws : Nat → Nat → ℚ) : SkipList :=
  s.insertSeq ((index_calls content).enum.map (fun e => (e.2, doc_id, draws e.1)))

/-- Modelled from the spec (section 4.2): the indexer as the specification
describes it, calling `insert` once per distinct cleaned token of the document
instead of once per occurrence.  Used to compare the source's per-occurrence
indexing against the spec's deduplicated indexing. -/
def SkipList.index_document_distinct (s : SkipList) (doc_id : Nat) (content : String)
    (draws : Nat → Nat → ℚ) : SkipList :=
  s.insertSeq ((index_calls content).dedup.enum.map (fun e => (e.2, doc_id, draws e.1)))

/-- The cleaned tokens of a query produced by the loop of
`InformationRetrievalSystem.search` (the words whose cleaning is nonempty). -/
def query_tokens : List String → List String
  | [] => []
  | w :: ws =>
    let cw := clean_word w
    if cw = "" then query_tokens ws else cw :: query_tokens ws

/-- The cleaned tokens of a raw query string, as the query loop produces them. -/
def query_calls (query : String) : List String :=
  query_tokens (py_split (lower_str query))

/-- The query loop of `InformationRetrievalSystem.search`: `all_results` starts
as `None`, becomes the postings of the first usable word, and is intersected
with the postings of each later usable word. -/
def search_loop (s : SkipList) : List String → Option (Finset Nat) → Option (Finset Nat)
  | [], acc => acc
  | w :: ws, acc =>
    let cw := clean_word w
    if cw = "" then search_loop s ws acc
    else
      match acc with
      | none => search_loop s ws (some (s.search_word cw))
      | some r => search_loop s ws (some (r ∩ s.search_word cw))

/-- `InformationRetrievalSystem.search`: run the query loop and return `[]`
when no usable word was seen, the ascending sorted result list otherwise. -/
def IRS_search (s : SkipList) (query : String) : List Nat :=
  match search_loop s (py_split (lower_str query)) none with
  | none => []
  | some r => r.sort (· ≤ ·)

/-- The set of documents `d` such that `insert(t, d)` occurs in the sequence
(the specification's postings of term `t`). -/
def postingsOf : List (String × Nat × (Nat → ℚ)) → String → Finset Nat
  | [], _ => ∅
  | e :: rest, t => if e.1 = t then insert e.2.1 (postingsOf rest t) else postingsOf rest t

/-- The set of terms inserted by a sequence of `insert` calls. -/
def termsFinset : List (String × Nat × (Nat → ℚ)) → Finset String
  | [] => ∅
  | e :: rest => insert e.1 (termsFinset rest)

/-- `ChainSeg s lvl p l q`: starting from the pointer `p`, following the
level-`lvl` forward pointers visits exactly the nodes of `l` and ends with the
pointer `q`.  `ChainSeg s lvl p l none` says the walk from `p` visits `l` and
terminates. -/
inductive ChainSeg (s : SkipList) (lvl : Nat) : Option Nat → List Nat → Option Nat → Prop
  | nil (p : Option Nat) : ChainSeg s lvl p [] p
  | cons (i : Nat) (rest : List Nat) (q : Option Nat) :
      ChainSeg s lvl (s.fwd i lvl) rest q → ChainSeg s lvl (some i) (i :: rest) q

/-- The level-`lvl` forward chain from pointer `p` is exactly `l` (and is
finite). -/
def IsChainFrom (s : SkipList) (lvl : Nat) (p : Option Nat) (l : List Nat) : Prop :=
  ChainSeg s lvl p l none

/-- Executable fueled walk along the level-`lvl` forward pointers. -/
def chainFrom (s : SkipList) (lvl : Nat) : Nat → Option Nat → List Nat
  | 0, _ => []
  | _ + 1, none => []
  | fuel + 1, some i => i :: chainFrom s lvl fuel (s.fwd i lvl)

/-- The nodes reached by walking the level-`lvl` chain from the header. -/
def chainAt (s : SkipList) (lvl : Nat) : List Nat :=
  chainFrom s lvl s.nodes.length (s.fwd 0 lvl)

/-- The sublist of the level-0 node list formed by the nodes that participate
in level `lvl` (their forward array has a slot for `lvl`). -/
def levelChain (s : SkipList) (l0 : List Nat) (lvl : Nat) : List Nat :=
  l0.filter (fun i => decide (lvl < s.nodeLen i))

/-- Well-formedness of a skiplist state, witnessed by `l0`, the list of real
node indices in level-0 chain order: the header is intact, `l0` enumerates
exactly the real arena indices with strictly increasing keys, every node's
height is positive and bounded by the current level, and at every level the
forward chain from the header is precisely the nodes tall enough for that
level, in `l0` order. -/
structure WfWith (s : SkipList) (l0 : List Nat) : Prop where
  hdr0 : 0 < s.nodes.length
  hdrKey : s.keyAt 0 = none
  hdrLen : s.nodeLen 0 = s.max_level + 1
  levelLe : s.level ≤ s.max_level
  mem_iff : ∀ i : Nat, i ∈ l0 ↔ (1 ≤ i ∧ i < s.nodes.length)
  nodup : l0.Nodup
  keysSome : ∀ i ∈ l0, (s.keyAt i).isSome
  sorted : l0.Pairwise (fun a b => keyD s a < keyD s b)
  lensPos : ∀ i ∈ l0, 1 ≤ s.nodeLen i
  lensLe : ∀ i ∈ l0, s.nodeLen i ≤ s.level + 1
  chains : ∀ lvl : Nat, ChainSeg s lvl (some 0) (0 :: levelChain s l0 lvl) none

/-- Lookup through the level-0 node list: postings of the node carrying `t`. -/
def chainLookup (s : SkipList) (l0 : List Nat) (t : String) : Finset Nat :=
  match l0.find? (fun i => decide (s.keyAt i = some t)) with
  | none => ∅
  | some i => s.valueAt i

/-- Union of the postings of a list of nodes. -/
def listUnion (s : SkipList) : List Nat → Finset Nat
  | [] => ∅
  | i :: rest => s.valueAt i ∪ listUnion s rest

/-- Some node of `l0` carries the term `t`. -/
def memKey (s : SkipList) (l0 : List Nat) (t : String) : Prop :=
  ∃ i ∈ l0, s.keyAt i = some t

/-- The test `node.key < word` as a Boolean predicate on node indices. -/
def qlt (s : SkipList) (word : String) (i : Nat) : Bool :=
  decide (keyD s i < word)

/-- The predecessor of `word` in the level-`lvl` chain: the last node of the
chain whose key is `< word`, the header (index 0) when there is none.  The
descent of the source computes exactly this node as `update[lvl]`. -/
def predAt (s : SkipList) (l0 : List Nat) (word : String) (lvl : Nat) : Nat :=
  ((levelChain s l0 lvl).takeWhile (qlt s word)).getLastD 0

/-- A skiplist state is well formed when some level-0 enumeration witnesses
`WfWith`. -/
def Wf (s : SkipList) : Prop := ∃ l0, WfWith s l0

/-- The skiplist state with the configuration typed as the source has it:
`max_level` is a Python `int`, so negative values are representable.  Only
construction and the fallible accesses below need this: a negative `max_level`
gives the header an empty forward array, whose first access raises. -/
structure SkipListI where
  max_level : Int
  probability : ℚ
  nodes : List SkipListNode
  level : Nat

/-- `SkipList.__init__` over the `int`-typed `max_level`: no validation, the
configuration stored as given, a header node with `[None] * (max_level + 1)`
forward slots — the empty list when `max_level < 0`, as Python's negative list
repetition yields `[]`, which `Int.toNat` reproduces — and level 0. -/
def SkipListI.initI (max_level : Int) (probability : ℚ) : SkipListI :=
  { max_level := max_level
    probability := probability
    nodes := [{ key := none, forward := List.replicate (max_level + 1).toNat none, value := ∅ }]
    level := 0 }

/-- The access `current.forward[lvl]` with Python's `IndexError` explicit: a
level beyond the node's forward array is an error, not a default value. -/
def fwdE (nodes : List SkipListNode) (cur lvl : Nat) : Except Unit (Option Nat) :=
  match nodes.get? cur with
  | none => Except.error ()
  | some n =>
    if lvl < n.forward.length then Except.ok (n.forward.getD lvl none) else Except.error ()

/-- The inner while loop of the descent with the forward access fallible: each
step reads `current.forward[lvl]` and errors when the slot is missing. -/
def advanceE (nodes : List SkipListNode) (lvl : Nat) (word : String) :
    Nat → Nat → Except Unit Nat
  | 0, cur => Except.ok cur
  | fuel + 1, cur =>
    match fwdE nodes cur lvl with
    | Except.error e => Except.error e
    | Except.ok none => Except.ok cur
    | Except.ok (some nxt) =>
      match keyL nodes nxt with
      | none => Except.ok cur
      | some k => if k < word then advanceE nodes lvl word fuel nxt else Except.ok cur

/-- The descent loop of `search_word` with the fallible forward access. -/
def searchDescendE (nodes : List SkipListNode) (word : String) :
    Nat → Nat → Except Unit Nat
  | cur, 0 => advanceE nodes 0 word nodes.length cur
  | cur, i + 1 =>
    match advanceE nodes (i + 1) word nodes.length cur with
    | Except.error e => Except.error e
    | Except.ok c => searchDescendE nodes word c i

/-- `SkipList.search_word` over the `int`-typed state with the forward
accesses fallible: on a header whose forward array is empty (a negative
`max_level`) the very first access of the descent errors, exactly where the
source raises `IndexError`. -/
def SkipListI.search_wordE (s : SkipListI) (word : String) : Except Unit (Finset Nat) :=
  match searchDescendE s.nodes word 0 s.level with
  | Except.error e => Except.error e
  | Except.ok cur =>
    match fwdE s.nodes cur 0 with
    | Except.error e => Except.error e
    | Except.ok none => Except.ok ∅
    | Except.ok (some nxt) =>
      if keyL s.nodes nxt = some word then Except.ok (valueL s.nodes nxt) else Except.ok ∅

/-! ### Basic list lemmas -/

theorem replicate_getD_none (n i : Nat) :
    (List.replicate n (none : Option Nat)).getD i none = none := by
  induction n generalizing i with
  | zero => simp
  | succ m ih =>
    cases i with
    | zero => simp [List.replicate]
    | succ j => simpa [List.replicate] using ih j

theorem getLastD_append_cons {α : Type} (xs : List α) (y : α) (ys : List α) (d : α) :
    (xs ++ y :: ys).getLastD d = (y :: ys).getLastD d := by
  induction xs generalizing d with
  | nil => rfl
  | cons a xs ih =>
    rw [List.cons_append, List.getLastD_cons, ih, List.getLastD_cons, List.getLastD_cons]

theorem cons_eq_dropLast_append {α : Type} (a : α) (l : List α) :
    a :: l = (a :: l).dropLast ++ [l.getLastD a] := by
  induction l generalizing a with
  | nil => rfl
  | cons b l' ih =>
    rw [List.getLastD_cons]
    show a :: b :: l' = a :: ((b :: l').dropLast ++ [l'.getLastD b])
    rw [← ih b]

theorem takeWhile_all_append {α : Type} (p : α → Bool) (as bs : List α)
    (h : ∀ a ∈ as, p a = true) :
    (as ++ bs).takeWhile p = as ++ bs.takeWhile p := by
  induction as with
  | nil => rfl
  | cons a as ih =>
    rw [List.cons_append, List.takeWhile_cons, h a (by simp),
      ih (fun x hx => h x (by simp [hx]))]
    simp

theorem find?_append_none {α : Type} (p : α → Bool) (l1 l2 : List α)
    (h : ∀ x ∈ l1, p x = false) :
    (l1 ++ l2).find? p = l2.find? p := by
  induction l1 with
  | nil => rfl
  | cons a l ih =>
    rw [List.cons_append, List.find?_cons, h a (by simp)]
    exact ih (fun x hx => h x (by simp [hx]))

theorem dropWhile_head_false {α : Type} (p : α → Bool) :
    ∀ (l : List α) (y : α) (ys : List α), l.dropWhile p = y :: ys → p y = false := by
  intro l
  induction l with
  | nil => intro y ys h; simp [List.dropWhile] at h
  | cons a l ih =>
    intro y ys h
    rw [List.dropWhile_cons] at h
    by_cases hp : p a = true
    · rw [if_pos hp] at h
      exact ih y ys h
    · rw [if_neg hp] at h
      cases h
      exact Bool.eq_false_iff.mpr hp

/-! ### Facts about the initial state -/

theorem init_fwd (ml : Nat) (p : ℚ) (i lvl : Nat) : (SkipList.init ml p).fwd i lvl = none := by
  cases i with
  | zero => simp [SkipList.fwd, fwdL, SkipList.init, replicate_getD_none]
  | succ j => simp [SkipList.fwd, fwdL, SkipList.init]

theorem wfWith_init (ml : Nat) (p : ℚ) : WfWith (SkipList.init ml p) [] := by
  refine
    { hdr0 := by simp [SkipList.init]
      hdrKey := rfl
      hdrLen := by simp [SkipList.nodeLen, lenL, SkipList.init]
      levelLe := by simp [SkipList.init]
      mem_iff := by intro i; simp [SkipList.init]; omega
      nodup := List.nodup_nil
      keysSome := by intro i hi; simp at hi
      sorted := List.Pairwise.nil
      lensPos := by intro i hi; simp at hi
      lensLe := by intro i hi; simp at hi
      chains := ?_ }
  intro lvl
  refine ChainSeg.cons 0 [] none ?_
  rw [init_fwd]
  exact ChainSeg.nil none

/-! ### The chain-segment toolkit -/

theorem chainSeg_nil_inv {s : SkipList} {lvl : Nat} {p q : Option Nat}
    (h : ChainSeg s lvl p [] q) : p = q := by
  cases h; rfl

theorem chainSeg_cons_inv {s : SkipList} {lvl : Nat} {p q : Option Nat} {i : Nat}
    {rest : List Nat} (h : ChainSeg s lvl p (i :: rest) q) :
    p = some i ∧ ChainSeg s lvl (s.fwd i lvl) rest q := by
  cases h with
  | cons _ _ _ h' => exact ⟨rfl, h'⟩

theorem chainSeg_append {s : SkipList} {lvl : Nat} {p q r : Option Nat} {l1 l2 : List Nat}
    (h1 : ChainSeg s lvl p l1 q) (h2 : ChainSeg s lvl q l2 r) :
    ChainSeg s lvl p (l1 ++ l2) r := by
  induction h1 with
  | nil p => simpa using h2
  | cons i rest q' h ih => exact ChainSeg.cons i (rest ++ l2) r (ih h2)

theorem chainSeg_split {s : SkipList} {lvl : Nat} {r : Option Nat} {l2 : List Nat} :
    ∀ (l1 : List Nat) (p : Option Nat), ChainSeg s lvl p (l1 ++ l2) r →
      ∃ q, ChainSeg s lvl p l1 q ∧ ChainSeg s lvl q l2 r := by
  intro l1
  induction l1 with
  | nil => intro p h; exact ⟨p, ChainSeg.nil p, by simpa using h⟩
  | cons a l ih =>
    intro p h
    obtain ⟨hp, h'⟩ := chainSeg_cons_inv h
    subst hp
    obtain ⟨q, hq1, hq2⟩ := ih _ h'
    exact ⟨q, ChainSeg.cons a l q hq1, hq2⟩

theorem chainSeg_last {s : SkipList} {lvl : Nat} {p q : Option Nat} {l : List Nat} {u : Nat}
    (h : ChainSeg s lvl p (l ++ [u]) q) : q = s.fwd u lvl := by
  obtain ⟨q1, _, h2⟩ := chainSeg_split l p h
  obtain ⟨_, h3⟩ := chainSeg_cons_inv h2
  exact (chainSeg_nil_inv h3).symm

theorem chainSeg_det {s : SkipList} {lvl : Nat} {l1 : List Nat} :
    ∀ {p : Option Nat} {l2 : List Nat}, ChainSeg s lvl p l1 none →
      ChainSeg s lvl p l2 none → l1 = l2 := by
  induction l1 with
  | nil =>
    intro p l2 h1 h2
    have hp := chainSeg_nil_inv h1
    subst hp
    cases l2 with
    | nil => rfl
    | cons b l2' => exact absurd (chainSeg_cons_inv h2).1 (by simp)
  | cons a l1' ih =>
    intro p l2 h1 h2
    obtain ⟨hp, h1'⟩ := chainSeg_cons_inv h1
    subst hp
    cases l2 with
    | nil => exact absurd (chainSeg_nil_inv h2) (by simp)
    | cons b l2' =>
      obtain ⟨hb, h2'⟩ := chainSeg_cons_inv h2
      have hab : a = b := Option.some.inj hb
      subst hab
      rw [ih h1' h2']

theorem chainSeg_congr {s s' : SkipList} {lvl : Nat} {p q : Option Nat} {l : List Nat}
    (hfwd : ∀ x ∈ l, s'.fwd x lvl = s.fwd x lvl) (h : ChainSeg s lvl p l q) :
    ChainSeg s' lvl p l q := by
  induction h with
  | nil p => exact ChainSeg.nil p
  | cons i rest q h ih =>
    refine ChainSeg.cons i rest q ?_
    rw [hfwd i (by simp)]
    exact ih (fun x hx => hfwd x (by simp [hx]))

theorem chainFrom_eq {s : SkipList} {lvl : Nat} {l : List Nat} :
    ∀ {p : Option Nat} {fuel : Nat}, ChainSeg s lvl p l none → l.length ≤ fuel →
      chainFrom s lvl fuel p = l := by
  induction l with
  | nil =>
    intro p fuel h _
    have hp := chainSeg_nil_inv h
    subst hp
    cases fuel <;> rfl
  | cons a l' ih =>
    intro p fuel h hlen
    obtain ⟨hp, h'⟩ := chainSeg_cons_inv h
    subst hp
    cases fuel with
    | zero => simp at hlen
    | succ f =>
      simp only [chainFrom]
      rw [ih h' (by simp only [List.length_cons] at hlen; omega)]

theorem chainSeg_retarget {s s' : SkipList} {lvl : Nat} {q r : Option Nat} {u : Nat} :
    ∀ (l : List Nat) (p : Option Nat), ChainSeg s lvl p (l ++ [u]) q →
      (∀ x ∈ l, s'.fwd x lvl = s.fwd x lvl) → s'.fwd u lvl = r →
      ChainSeg s' lvl p (l ++ [u]) r := by
  intro l
  induction l with
  | nil =>
    intro p h _ hu
    obtain ⟨hp, _⟩ := chainSeg_cons_inv h
    subst hp
    refine ChainSeg.cons u [] r ?_
    rw [hu]
    exact ChainSeg.nil r
  | cons a l' ih =>
    intro p h hl hu
    obtain ⟨hp, h'⟩ := chainSeg_cons_inv h
    subst hp
    refine ChainSeg.cons a (l' ++ [u]) r ?_
    rw [hl a (by simp)]
    exact ih _ h' (fun x hx => hl x (by simp [hx])) hu

theorem chainSeg_subset {s : SkipList} {lvl : Nat} {p q : Option Nat} {l : List Nat}
    (h : ChainSeg s lvl p l q) {x : Nat} :
    x ∈ l → ∃ rest, ChainSeg s lvl (some x) (x :: rest) q := by
  induction h with
  | nil p => intro hx; simp at hx
  | cons i rest q h ih =>
    intro hx
    rcases List.mem_cons.mp hx with h1 | h2
    · subst h1
      exact ⟨rest, ChainSeg.cons _ _ _ h⟩
    · exact ih h2

/-! ### Derived facts about well-formed states -/

theorem getLastD_mem_cons {α : Type} (a : α) (l : List α) (d : α) :
    (a :: l).getLastD d ∈ a :: l := by
  induction l generalizing a d with
  | nil => rw [List.getLastD_cons, List.getLastD_nil]; exact List.mem_singleton_self a
  | cons b l ih =>
    rw [List.getLastD_cons]
    exact List.mem_cons_of_mem a (ih b a)

theorem WfWith.mem_lt {s : SkipList} {l0 : List Nat} (h : WfWith s l0) {i : Nat}
    (hi : i ∈ l0) : i < s.nodes.length :=
  ((h.mem_iff i).mp hi).2

theorem WfWith.mem_pos {s : SkipList} {l0 : List Nat} (h : WfWith s l0) {i : Nat}
    (hi : i ∈ l0) : 1 ≤ i :=
  ((h.mem_iff i).mp hi).1

theorem WfWith.length_l0 {s : SkipList} {l0 : List Nat} (h : WfWith s l0) :
    l0.length + 1 = s.nodes.length := by
  have hperm : l0.Perm (List.range' 1 (s.nodes.length - 1)) := by
    refine (List.perm_ext_iff_of_nodup h.nodup (List.nodup_range' 1 (s.nodes.length - 1))).mpr ?_
    intro a
    rw [h.mem_iff a, List.mem_range'_1]
    omega
  have hlen := hperm.length_eq
  rw [List.length_range'] at hlen
  have := h.hdr0
  omega

theorem WfWith.keyAt_mem {s : SkipList} {l0 : List Nat} (h : WfWith s l0) {i : Nat}
    (hi : i ∈ l0) : s.keyAt i = some (keyD s i) := by
  obtain ⟨w, hw⟩ := Option.isSome_iff_exists.mp (h.keysSome i hi)
  rw [hw]
  simp [keyD, hw]

theorem levelChain_sublist (s : SkipList) (l0 : List Nat) (lvl : Nat) :
    (levelChain s l0 lvl).Sublist l0 :=
  List.filter_sublist _

theorem levelChain_zero {s : SkipList} {l0 : List Nat} (h : WfWith s l0) :
    levelChain s l0 0 = l0 := by
  rw [levelChain, List.filter_eq_self]
  intro a ha
  have := h.lensPos a ha
  simp
  omega

theorem levelChain_hi {s : SkipList} {l0 : List Nat} (h : WfWith s l0) {lvl : Nat}
    (hlvl : s.level + 1 ≤ lvl) : levelChain s l0 lvl = [] := by
  rw [levelChain, List.filter_eq_nil]
  intro a ha
  have := h.lensLe a ha
  simp
  omega

theorem levelChain_mem_le {s : SkipList} {l0 : List Nat} {j lvl : Nat} (hle : j ≤ lvl)
    {i : Nat} (hi : i ∈ levelChain s l0 lvl) : i ∈ levelChain s l0 j := by
  rw [levelChain, List.mem_filter] at hi ⊢
  refine ⟨hi.1, ?_⟩
  have h2 := hi.2
  simp at h2 ⊢
  omega

theorem WfWith.sorted_levelChain {s : SkipList} {l0 : List Nat} (h : WfWith s l0)
    (lvl : Nat) : (levelChain s l0 lvl).Pairwise (fun a b => keyD s a < keyD s b) :=
  h.sorted.sublist (levelChain_sublist s l0 lvl)

theorem WfWith.levelChain_len {s : SkipList} {l0 : List Nat} (h : WfWith s l0)
    (lvl : Nat) : (levelChain s l0 lvl).length ≤ s.nodes.length := by
  have h1 := List.Sublist.length_le (levelChain_sublist s l0 lvl)
  have h2 := h.length_l0
  omega

/-! ### Correctness of the descent -/

theorem advance_spec {s : SkipList} {lvl : Nat} {word : String} :
    ∀ (rest : List Nat) (u fuel : Nat), ChainSeg s lvl (s.fwd u lvl) rest none →
      (∀ i ∈ rest, (s.keyAt i).isSome) → rest.length ≤ fuel →
      advance s lvl word fuel u = (rest.takeWhile (qlt s word)).getLastD u := by
  intro rest
  induction rest with
  | nil =>
    intro u fuel hch _ _
    have hf := chainSeg_nil_inv hch
    cases fuel with
    | zero => rfl
    | succ f => simp [advance, hf]
  | cons v rest' ih =>
    intro u fuel hch hk hlen
    obtain ⟨hp, h'⟩ := chainSeg_cons_inv hch
    cases fuel with
    | zero => simp at hlen
    | succ f =>
      obtain ⟨kv, hkv⟩ := Option.isSome_iff_exists.mp (hk v (by simp))
      have hkd : keyD s v = kv := by simp [keyD, hkv]
      simp only [advance, hp, hkv]
      by_cases hlt : kv < word
      · rw [if_pos hlt]
        rw [ih v f h' (fun i hi => hk i (by simp [hi]))
          (by simp only [List.length_cons] at hlen; omega)]
        rw [List.takeWhile_cons]
        have hq : qlt s word v = true := by rw [qlt, hkd]; exact decide_eq_true hlt
        rw [hq, if_pos rfl, List.getLastD_cons]
      · rw [if_neg hlt]
        rw [List.takeWhile_cons]
        have hq : qlt s word v = false := by rw [qlt, hkd]; exact decide_eq_false hlt
        rw [hq]
        rfl

theorem predAt_hi {s : SkipList} {l0 : List Nat} (h : WfWith s l0) (word : String)
    {lvl : Nat} (hlvl : s.level + 1 ≤ lvl) : predAt s l0 word lvl = 0 := by
  rw [predAt, levelChain_hi h hlvl]
  rfl

theorem predAt_cases {s : SkipList} (l0 : List Nat) (word : String) (lvl : Nat) :
    predAt s l0 word lvl = 0 ∨
      (predAt s l0 word lvl ∈ levelChain s l0 lvl ∧
        keyD s (predAt s l0 word lvl) < word) := by
  rw [predAt]
  cases htw : (levelChain s l0 lvl).takeWhile (qlt s word) with
  | nil => left; rfl
  | cons a tl =>
    right
    have hmem : (a :: tl).getLastD 0 ∈ a :: tl := getLastD_mem_cons a tl 0
    have hmem2 : (a :: tl).getLastD 0 ∈ (levelChain s l0 lvl).takeWhile (qlt s word) := by
      rw [htw]; exact hmem
    constructor
    · exact (List.takeWhile_sublist _).subset hmem2
    · have := List.mem_takeWhile_imp hmem2
      simpa [qlt] using this

theorem dropWhile_ge {s : SkipList} {word : String} {l : List Nat}
    (hp : l.Pairwise (fun a b => keyD s a < keyD s b)) :
    ∀ x ∈ l.dropWhile (qlt s word), ¬ keyD s x < word := by
  induction l with
  | nil => simp [List.dropWhile]
  | cons a l ih =>
    rw [List.dropWhile_cons]
    by_cases hq : qlt s word a = true
    · rw [if_pos hq]
      exact ih (List.pairwise_cons.mp hp).2
    · rw [if_neg hq]
      intro x hx
      rcases List.mem_cons.mp hx with h1 | h2
      · subst h1
        simpa [qlt] using hq
      · have ha : ¬ keyD s a < word := by simpa [qlt] using hq
        have hax : keyD s a < keyD s x := (List.pairwise_cons.mp hp).1 x h2
        intro hxw
        exact ha (lt_trans hax hxw)

theorem advance_pred {s : SkipList} {l0 : List Nat} (h : WfWith s l0) (word : String)
    (lvl : Nat) :
    advance s lvl word s.nodes.length (predAt s l0 word (lvl + 1)) = predAt s l0 word lvl := by
  have hch := h.chains lvl
  have hkeys : ∀ i ∈ levelChain s l0 lvl, (s.keyAt i).isSome :=
    fun i hi => h.keysSome i ((levelChain_sublist s l0 lvl).subset hi)
  rcases predAt_cases l0 word (lvl + 1) with h0 | ⟨hmem, hq⟩
  · rw [h0, predAt]
    obtain ⟨_, hrest⟩ := chainSeg_cons_inv hch
    exact advance_spec (levelChain s l0 lvl) 0 s.nodes.length hrest hkeys
      (h.levelChain_len lvl)
  · set u := predAt s l0 word (lvl + 1) with hu
    have humem : u ∈ levelChain s l0 lvl := levelChain_mem_le (by omega) hmem
    obtain ⟨as, ys, hsplit⟩ := List.mem_iff_append.mp humem
    have hsorted := h.sorted_levelChain lvl
    have hq_as : ∀ x ∈ as, qlt s word x = true := by
      intro x hx
      rw [hsplit] at hsorted
      have hcross := (List.pairwise_append.mp hsorted).2.2
      have hxu : keyD s x < keyD s u := hcross x hx u (by simp)
      exact decide_eq_true (lt_trans hxu hq)
    have hshape : 0 :: levelChain s l0 lvl = ((0 :: as) ++ [u]) ++ ys := by
      rw [hsplit]; simp
    rw [hshape] at hch
    obtain ⟨q1, hseg1, hseg2⟩ := chainSeg_split ((0 :: as) ++ [u]) (some 0) hch
    have hq1 : q1 = s.fwd u lvl := chainSeg_last hseg1
    rw [hq1] at hseg2
    have hyslen : ys.length ≤ s.nodes.length := by
      have h1 := h.levelChain_len lvl
      have h2 : (levelChain s l0 lvl).length = as.length + (ys.length + 1) := by
        rw [hsplit]; simp [List.length_append]
      omega
    have hkeys_ys : ∀ i ∈ ys, (s.keyAt i).isSome := by
      intro i hi
      exact hkeys i (by rw [hsplit]; simp [hi])
    have hadv := @advance_spec s lvl word ys u s.nodes.length hseg2 hkeys_ys hyslen
    have hqb : qlt s word u = true := decide_eq_true hq
    rw [hadv, predAt, hsplit, takeWhile_all_append _ as (u :: ys) hq_as,
      List.takeWhile_cons, hqb, if_pos rfl, getLastD_append_cons, List.getLastD_cons]

theorem descend_pred {s : SkipList} {l0 : List Nat} (h : WfWith s l0) (word : String) :
    ∀ i : Nat, descend s word (predAt s l0 word (i + 1)) i =
      (List.range (i + 1)).map (predAt s l0 word) := by
  intro i
  induction i with
  | zero =>
    simp only [descend]
    rw [advance_pred h word 0]
    simp [List.range_succ]
  | succ j ih =>
    simp only [descend]
    rw [advance_pred h word (j + 1), ih]
    simp [List.range_succ]

theorem searchDescend_pred {s : SkipList} {l0 : List Nat} (h : WfWith s l0) (word : String) :
    ∀ i : Nat, searchDescend s word (predAt s l0 word (i + 1)) i = predAt s l0 word 0 := by
  intro i
  induction i with
  | zero =>
    simp only [searchDescend]
    exact advance_pred h word 0
  | succ j ih =>
    simp only [searchDescend]
    rw [advance_pred h word (j + 1)]
    exact ih

theorem searchDescend_full {s : SkipList} {l0 : List Nat} (h : WfWith s l0) (word : String) :
    searchDescend s word 0 s.level = predAt s l0 word 0 := by
  have h1 := searchDescend_pred h word s.level
  rw [predAt_hi h word (by omega)] at h1
  exact h1

theorem descend_full {s : SkipList} {l0 : List Nat} (h : WfWith s l0) (word : String) :
    descend s word 0 s.level = (List.range (s.level + 1)).map (predAt s l0 word) := by
  have h1 := descend_pred h word s.level
  rw [predAt_hi h word (by omega)] at h1
  exact h1

theorem pred0_succ {s : SkipList} {l0 : List Nat} (h : WfWith s l0) (word : String) :
    s.fwd (predAt s l0 word 0) 0 = (l0.dropWhile (qlt s word)).head? := by
  have hch := h.chains 0
  rw [levelChain_zero h] at hch
  have hsplit : (0 : Nat) :: l0 =
      ((0 :: l0.takeWhile (qlt s word)).dropLast ++
        [(l0.takeWhile (qlt s word)).getLastD 0]) ++ l0.dropWhile (qlt s word) := by
    rw [← cons_eq_dropLast_append, List.cons_append, List.takeWhile_append_dropWhile]
  rw [hsplit] at hch
  obtain ⟨q1, hseg1, hseg2⟩ := chainSeg_split _ (some 0) hch
  have hq1 : q1 = s.fwd ((l0.takeWhile (qlt s word)).getLastD 0) 0 := chainSeg_last hseg1
  have hhead : q1 = (l0.dropWhile (qlt s word)).head? := by
    cases hdw : l0.dropWhile (qlt s word) with
    | nil =>
      rw [hdw] at hseg2
      exact (chainSeg_nil_inv hseg2).trans rfl
    | cons y ys =>
      rw [hdw] at hseg2
      exact (chainSeg_cons_inv hseg2).1
  rw [predAt, levelChain_zero h, ← hq1, hhead]

/-! ### Correctness of search_word -/

theorem takeWhile_not_word {s : SkipList} {l0 : List Nat} (h : WfWith s l0) (word : String) :
    ∀ x ∈ l0.takeWhile (qlt s word), ¬(s.keyAt x = some word) := by
  intro x hx hkey
  have hq := List.mem_takeWhile_imp hx
  have hxl0 : x ∈ l0 := (List.takeWhile_sublist _).subset hx
  have hkd : s.keyAt x = some (keyD s x) := h.keyAt_mem hxl0
  rw [hkd] at hkey
  have hxw : keyD s x = word := Option.some.inj hkey
  rw [qlt, hxw] at hq
  simp at hq

theorem dropWhile_tail_not_word {s : SkipList} {l0 : List Nat} (h : WfWith s l0)
    (word : String) (y : Nat) (ys : List Nat)
    (hdw : l0.dropWhile (qlt s word) = y :: ys) :
    ∀ x ∈ ys, ¬(s.keyAt x = some word) := by
  intro x hx hkey
  have hdwsub : (l0.dropWhile (qlt s word)).Sublist l0 := List.dropWhile_sublist _
  have hpw : (y :: ys).Pairwise (fun a b => keyD s a < keyD s b) := by
    rw [← hdw]
    exact h.sorted.sublist hdwsub
  have hyx : keyD s y < keyD s x := (List.pairwise_cons.mp hpw).1 x hx
  have hqy : qlt s word y = false := dropWhile_head_false _ l0 y ys hdw
  have hyw : ¬ keyD s y < word := by simpa [qlt] using hqy
  have hxl0 : x ∈ l0 := hdwsub.subset (by rw [hdw]; simp [hx])
  have hkd : s.keyAt x = some (keyD s x) := h.keyAt_mem hxl0
  rw [hkd] at hkey
  have hxw : keyD s x = word := Option.some.inj hkey
  rw [hxw] at hyx
  exact hyw hyx

theorem search_word_wf {s : SkipList} {l0 : List Nat} (h : WfWith s l0) (word : String) :
    s.search_word word = chainLookup s l0 word := by
  have hsplit : l0 = l0.takeWhile (qlt s word) ++ l0.dropWhile (qlt s word) := by
    rw [List.takeWhile_append_dropWhile]
  have htwf : ∀ x ∈ l0.takeWhile (qlt s word),
      (fun i => decide (s.keyAt i = some word)) x = false := by
    intro x hx
    simp only [decide_eq_false_iff_not]
    exact takeWhile_not_word h word x hx
  have hfind : l0.find? (fun i => decide (s.keyAt i = some word)) =
      (l0.dropWhile (qlt s word)).find? (fun i => decide (s.keyAt i = some word)) := by
    conv_lhs => rw [hsplit]
    exact find?_append_none _ _ _ htwf
  simp only [SkipList.search_word]
  rw [searchDescend_full h word, pred0_succ h word]
  cases hdw : l0.dropWhile (qlt s word) with
  | nil =>
    rw [chainLookup, hfind, hdw]
    rfl
  | cons y ys =>
    by_cases hy : s.keyAt y = some word
    · rw [chainLookup, hfind, hdw]
      simp only [List.find?_cons, List.head?_cons]
      simp [hy]
    · rw [chainLookup, hfind, hdw]
      have hnone : ys.find? (fun i => decide (s.keyAt i = some word)) = none := by
        rw [List.find?_eq_none]
        intro x hx
        simpa using dropWhile_tail_not_word h word y ys hdw x hx
      simp only [List.find?_cons, List.head?_cons]
      simp [hy, hnone]

/-! ### Correctness of range_search -/

theorem collectRange_spec {s : SkipList} {lo hi : String} :
    ∀ (rest : List Nat) (fuel : Nat) (p : Option Nat), ChainSeg s 0 p rest none →
      (∀ i ∈ rest, s.keyAt i = some (keyD s i)) →
      (∀ i ∈ rest, lo ≤ keyD s i) →
      rest.length ≤ fuel →
      collectRange s lo hi fuel p =
        listUnion s (rest.takeWhile (fun i => decide (keyD s i ≤ hi))) := by
  intro rest
  induction rest with
  | nil =>
    intro fuel p hch _ _ _
    have hp := chainSeg_nil_inv hch
    subst hp
    cases fuel <;> rfl
  | cons y ys ih =>
    intro fuel p hch hk hlo hlen
    obtain ⟨hp, h'⟩ := chainSeg_cons_inv hch
    subst hp
    cases fuel with
    | zero => simp at hlen
    | succ f =>
      have hky := hk y (by simp)
      simp only [collectRange, hky]
      rw [List.takeWhile_cons]
      by_cases hhi : keyD s y ≤ hi
      · rw [if_pos hhi, if_pos (hlo y (by simp)), decide_eq_true hhi, if_pos rfl]
        rw [ih f (s.fwd y 0) h' (fun i hi2 => hk i (by simp [hi2]))
          (fun i hi2 => hlo i (by simp [hi2]))
          (by simp only [List.length_cons] at hlen; omega)]
        rfl
      · rw [if_neg hhi, decide_eq_false hhi]
        rfl

theorem filter_eq_takeWhile_le {s : SkipList} {hi : String} :
    ∀ (l : List Nat), l.Pairwise (fun a b => keyD s a < keyD s b) →
      l.filter (fun i => decide (keyD s i ≤ hi)) =
        l.takeWhile (fun i => decide (keyD s i ≤ hi)) := by
  intro l
  induction l with
  | nil => intro _; rfl
  | cons a l ih =>
    intro hp
    rw [List.filter_cons, List.takeWhile_cons]
    by_cases ha : keyD s a ≤ hi
    · rw [decide_eq_true ha, if_pos rfl, if_pos rfl, ih (List.pairwise_cons.mp hp).2]
    · rw [decide_eq_false ha, if_neg (by simp), if_neg (by simp)]
      rw [List.filter_eq_nil_iff]
      intro x hx
      have hax : keyD s a < keyD s x := (List.pairwise_cons.mp hp).1 x hx
      simp only [decide_eq_true_eq]
      intro hxhi
      exact ha (le_of_lt (lt_of_lt_of_le hax hxhi))

theorem range_search_wf {s : SkipList} {l0 : List Nat} (h : WfWith s l0) (lo hi : String) :
    s.range_search lo hi =
      listUnion s (l0.filter (fun i => decide (lo ≤ keyD s i) && decide (keyD s i ≤ hi))) := by
  have hch := h.chains 0
  rw [levelChain_zero h] at hch
  have hsplit : (0 : Nat) :: l0 =
      ((0 :: l0.takeWhile (qlt s lo)).dropLast ++
        [(l0.takeWhile (qlt s lo)).getLastD 0]) ++ l0.dropWhile (qlt s lo) := by
    rw [← cons_eq_dropLast_append, List.cons_append, List.takeWhile_append_dropWhile]
  rw [hsplit] at hch
  obtain ⟨q1, hseg1, hseg2⟩ := chainSeg_split _ (some 0) hch
  have hq1 : q1 = s.fwd ((l0.takeWhile (qlt s lo)).getLastD 0) 0 := chainSeg_last hseg1
  have hstart : q1 = s.fwd (predAt s l0 lo 0) 0 := by
    rw [hq1, predAt, levelChain_zero h]
  rw [hstart] at hseg2
  have hkeys : ∀ i ∈ l0.dropWhile (qlt s lo), s.keyAt i = some (keyD s i) :=
    fun i hi => h.keyAt_mem ((List.dropWhile_sublist _).subset hi)
  have hlo : ∀ i ∈ l0.dropWhile (qlt s lo), lo ≤ keyD s i := by
    intro i hi
    exact not_lt.mp (dropWhile_ge h.sorted i hi)
  have hlen : (l0.dropWhile (qlt s lo)).length ≤ s.nodes.length := by
    have hsub : (l0.dropWhile (qlt s lo)).Sublist l0 := List.dropWhile_sublist _
    have h1 := hsub.length_le
    have h2 := h.length_l0
    omega
  simp only [SkipList.range_search]
  rw [searchDescend_full h lo]
  rw [collectRange_spec (l0.dropWhile (qlt s lo)) s.nodes.length _ hseg2 hkeys hlo hlen]
  have hlist : l0.filter (fun i => decide (lo ≤ keyD s i) && decide (keyD s i ≤ hi)) =
      (l0.dropWhile (qlt s lo)).takeWhile (fun i => decide (keyD s i ≤ hi)) := by
    have hl0split : l0 = l0.takeWhile (qlt s lo) ++ l0.dropWhile (qlt s lo) := by
      rw [List.takeWhile_append_dropWhile]
    conv_lhs => rw [hl0split]
    rw [List.filter_append]
    have h1 : (l0.takeWhile (qlt s lo)).filter
        (fun i => decide (lo ≤ keyD s i) && decide (keyD s i ≤ hi)) = [] := by
      rw [List.filter_eq_nil_iff]
      intro x hx
      have hq := List.mem_takeWhile_imp hx
      simp only [qlt, decide_eq_true_eq] at hq
      simp only [Bool.and_eq_true, decide_eq_true_eq, not_and]
      intro hlox
      exact absurd hq (not_lt.mpr hlox)
    have h2 : (l0.dropWhile (qlt s lo)).filter
        (fun i => decide (lo ≤ keyD s i) && decide (keyD s i ≤ hi)) =
        (l0.dropWhile (qlt s lo)).filter (fun i => decide (keyD s i ≤ hi)) := by
      refine List.filter_congr ?_
      intro x hx
      rw [decide_eq_true (hlo x hx), Bool.true_and]
    rw [h1, h2, List.nil_append,
      filter_eq_takeWhile_le _ (h.sorted.sublist (List.dropWhile_sublist _))]
  rw [hlist]

/-! ### Arena mutation lemmas -/

theorem getD_eq_get? {α : Type} (l : List α) (n : Nat) (d : α) :
    l.getD n d = (l.get? n).getD d := by
  simp [List.getD_eq_getElem?_getD, List.get?_eq_getElem?]

theorem addDoc_get? (nodes : List SkipListNode) (i doc j : Nat) :
    (addDoc nodes i doc).get? j =
      if j = i then (nodes.get? i).map (fun n => { n with value := insert doc n.value })
      else nodes.get? j := by
  cases h : nodes.get? i with
  | none =>
    simp only [addDoc, h, Option.map_none']
    by_cases hj : j = i
    · subst hj
      rw [if_pos rfl, h]
    · rw [if_neg hj]
  | some n =>
    simp only [addDoc, h, Option.map_some']
    by_cases hj : j = i
    · subst hj
      rw [if_pos rfl]
      have hlt : j < nodes.length := by
        by_contra hge
        rw [List.get?_eq_none.mpr (le_of_not_lt hge)] at h
        exact Option.noConfusion h
      exact List.get?_set_eq_of_lt _ hlt
    · rw [if_neg hj]
      exact List.get?_set_ne _ nodes fun hh => hj hh.symm

theorem setFwd_get? (nodes : List SkipListNode) (i lvl : Nat) (v : Option Nat) (j : Nat) :
    (setFwd nodes i lvl v).get? j =
      if j = i then (nodes.get? i).map (fun n => { n with forward := n.forward.set lvl v })
      else nodes.get? j := by
  cases h : nodes.get? i with
  | none =>
    simp only [setFwd, h, Option.map_none']
    by_cases hj : j = i
    · subst hj
      rw [if_pos rfl, h]
    · rw [if_neg hj]
  | some n =>
    simp only [setFwd, h, Option.map_some']
    by_cases hj : j = i
    · subst hj
      rw [if_pos rfl]
      have hlt : j < nodes.length := by
        by_contra hge
        rw [List.get?_eq_none.mpr (le_of_not_lt hge)] at h
        exact Option.noConfusion h
      exact List.get?_set_eq_of_lt _ hlt
    · rw [if_neg hj]
      exact List.get?_set_ne _ nodes fun hh => hj hh.symm

theorem keyL_addDoc (nodes : List SkipListNode) (i doc j : Nat) :
    keyL (addDoc nodes i doc) j = keyL nodes j := by
  rw [keyL, keyL, addDoc_get?]
  by_cases hj : j = i
  · subst hj
    rw [if_pos rfl]
    cases nodes.get? j <;> rfl
  · rw [if_neg hj]

theorem lenL_addDoc (nodes : List SkipListNode) (i doc j : Nat) :
    lenL (addDoc nodes i doc) j = lenL nodes j := by
  rw [lenL, lenL, addDoc_get?]
  by_cases hj : j = i
  · subst hj
    rw [if_pos rfl]
    cases nodes.get? j <;> rfl
  · rw [if_neg hj]

theorem fwdL_addDoc (nodes : List SkipListNode) (i doc j lvl : Nat) :
    fwdL (addDoc nodes i doc) j lvl = fwdL nodes j lvl := by
  rw [fwdL, fwdL, addDoc_get?]
  by_cases hj : j = i
  · subst hj
    rw [if_pos rfl]
    cases nodes.get? j <;> rfl
  · rw [if_neg hj]

theorem addDoc_length (nodes : List SkipListNode) (i doc : Nat) :
    (addDoc nodes i doc).length = nodes.length := by
  cases h : nodes.get? i with
  | none => simp only [addDoc, h]
  | some n => simp only [addDoc, h, List.length_set]

theorem valueL_addDoc_self (nodes : List SkipListNode) (i doc : Nat)
    (hlt : i < nodes.length) :
    valueL (addDoc nodes i doc) i = insert doc (valueL nodes i) := by
  rw [valueL, valueL, addDoc_get?, if_pos rfl]
  cases h : nodes.get? i with
  | none => exact absurd (List.get?_eq_none.mp h) (not_le.mpr hlt)
  | some n => rfl

theorem valueL_addDoc_ne (nodes : List SkipListNode) (i doc j : Nat) (hj : j ≠ i) :
    valueL (addDoc nodes i doc) j = valueL nodes j := by
  rw [valueL, valueL, addDoc_get?, if_neg hj]

theorem keyL_setFwd (nodes : List SkipListNode) (i lvl : Nat) (v : Option Nat) (j : Nat) :
    keyL (setFwd nodes i lvl v) j = keyL nodes j := by
  rw [keyL, keyL, setFwd_get?]
  by_cases hj : j = i
  · subst hj
    rw [if_pos rfl]
    cases nodes.get? j <;> rfl
  · rw [if_neg hj]

theorem valueL_setFwd (nodes : List SkipListNode) (i lvl : Nat) (v : Option Nat) (j : Nat) :
    valueL (setFwd nodes i lvl v) j = valueL nodes j := by
  rw [valueL, valueL, setFwd_get?]
  by_cases hj : j = i
  · subst hj
    rw [if_pos rfl]
    cases nodes.get? j <;> rfl
  · rw [if_neg hj]

theorem lenL_setFwd (nodes : List SkipListNode) (i lvl : Nat) (v : Option Nat) (j : Nat) :
    lenL (setFwd nodes i lvl v) j = lenL nodes j := by
  rw [lenL, lenL, setFwd_get?]
  by_cases hj : j = i
  · subst hj
    rw [if_pos rfl]
    cases nodes.get? j with
    | none => rfl
    | some n => simp [List.length_set]
  · rw [if_neg hj]

theorem setFwd_length (nodes : List SkipListNode) (i lvl : Nat) (v : Option Nat) :
    (setFwd nodes i lvl v).length = nodes.length := by
  cases h : nodes.get? i with
  | none => simp only [setFwd, h]
  | some n => simp only [setFwd, h, List.length_set]

theorem fwdL_setFwd_self (nodes : List SkipListNode) (i lvl : Nat) (v : Option Nat)
    (hi : i < nodes.length) (hlvl : lvl < lenL nodes i) :
    fwdL (setFwd nodes i lvl v) i lvl = v := by
  rw [fwdL, setFwd_get?, if_pos rfl]
  cases h : nodes.get? i with
  | none => exact absurd (List.get?_eq_none.mp h) (not_le.mpr hi)
  | some n =>
    simp only [Option.map_some']
    rw [getD_eq_get?]
    have hlen : lvl < n.forward.length := by
      rw [lenL, h] at hlvl
      exact hlvl
    rw [List.get?_set_eq_of_lt _ hlen]
    rfl

theorem fwdL_setFwd_ne_lvl (nodes : List SkipListNode) (i lvl : Nat) (v : Option Nat)
    (j m : Nat) (hm : m ≠ lvl) :
    fwdL (setFwd nodes i lvl v) j m = fwdL nodes j m := by
  rw [fwdL, fwdL, setFwd_get?]
  by_cases hj : j = i
  · subst hj
    rw [if_pos rfl]
    cases h : nodes.get? j with
    | none => rfl
    | some n =>
      simp only [Option.map_some']
      rw [getD_eq_get?, getD_eq_get?, List.get?_set_ne _ _ (fun hh => hm hh.symm)]
  · rw [if_neg hj]

theorem fwdL_setFwd_ne_node (nodes : List SkipListNode) (i lvl : Nat) (v : Option Nat)
    (j m : Nat) (hj : j ≠ i) :
    fwdL (setFwd nodes i lvl v) j m = fwdL nodes j m := by
  rw [fwdL, fwdL, setFwd_get?, if_neg hj]

theorem spliceStep_length (nodes : List SkipListNode) (u newIdx lvl : Nat) :
    (spliceStep nodes u newIdx lvl).length = nodes.length := by
  simp only [spliceStep, setFwd_length]

theorem spliceStep_keyL (nodes : List SkipListNode) (u newIdx lvl j : Nat) :
    keyL (spliceStep nodes u newIdx lvl) j = keyL nodes j := by
  simp only [spliceStep, keyL_setFwd]

theorem spliceStep_valueL (nodes : List SkipListNode) (u newIdx lvl j : Nat) :
    valueL (spliceStep nodes u newIdx lvl) j = valueL nodes j := by
  simp only [spliceStep, valueL_setFwd]

theorem spliceStep_lenL (nodes : List SkipListNode) (u newIdx lvl j : Nat) :
    lenL (spliceStep nodes u newIdx lvl) j = lenL nodes j := by
  simp only [spliceStep, lenL_setFwd]

theorem spliceStep_fwdL_ne_lvl (nodes : List SkipListNode) (u newIdx lvl x m : Nat)
    (hm : m ≠ lvl) :
    fwdL (spliceStep nodes u newIdx lvl) x m = fwdL nodes x m := by
  simp only [spliceStep]
  rw [fwdL_setFwd_ne_lvl _ _ _ _ _ _ hm, fwdL_setFwd_ne_lvl _ _ _ _ _ _ hm]

theorem splice_length (ups : Nat → Nat) (newIdx : Nat) :
    ∀ (rem i : Nat) (nodes : List SkipListNode),
      (splice ups newIdx i rem nodes).length = nodes.length := by
  intro rem
  induction rem with
  | zero => intro i nodes; rfl
  | succ r ih =>
    intro i nodes
    simp only [splice]
    rw [ih (i + 1), spliceStep_length]

theorem splice_keyL (ups : Nat → Nat) (newIdx : Nat) :
    ∀ (rem i : Nat) (nodes : List SkipListNode) (j : Nat),
      keyL (splice ups newIdx i rem nodes) j = keyL nodes j := by
  intro rem
  induction rem with
  | zero => intro i nodes j; rfl
  | succ r ih =>
    intro i nodes j
    simp only [splice]
    rw [ih (i + 1) _ j, spliceStep_keyL]

theorem splice_valueL (ups : Nat → Nat) (newIdx : Nat) :
    ∀ (rem i : Nat) (nodes : List SkipListNode) (j : Nat),
      valueL (splice ups newIdx i rem nodes) j = valueL nodes j := by
  intro rem
  induction rem with
  | zero => intro i nodes j; rfl
  | succ r ih =>
    intro i nodes j
    simp only [splice]
    rw [ih (i + 1) _ j, spliceStep_valueL]

theorem splice_lenL (ups : Nat → Nat) (newIdx : Nat) :
    ∀ (rem i : Nat) (nodes : List SkipListNode) (j : Nat),
      lenL (splice ups newIdx i rem nodes) j = lenL nodes j := by
  intro rem
  induction rem with
  | zero => intro i nodes j; rfl
  | succ r ih =>
    intro i nodes j
    simp only [splice]
    rw [ih (i + 1) _ j, spliceStep_lenL]

theorem splice_fwdL_out (ups : Nat → Nat) (newIdx : Nat) :
    ∀ (rem i0 : Nat) (nodes : List SkipListNode) (x lvl : Nat),
      (lvl < i0 ∨ i0 + rem ≤ lvl) →
      fwdL (splice ups newIdx i0 rem nodes) x lvl = fwdL nodes x lvl := by
  intro rem
  induction rem with
  | zero => intro i0 nodes x lvl _; rfl
  | succ r ih =>
    intro i0 nodes x lvl hout
    simp only [splice]
    rw [ih (i0 + 1) _ x lvl (by omega)]
    exact spliceStep_fwdL_ne_lvl _ _ _ _ _ _ (by omega)

theorem splice_fwdL_new (ups : Nat → Nat) (newIdx : Nat) :
    ∀ (rem i0 : Nat) (nodes : List SkipListNode) (lvl : Nat),
      i0 ≤ lvl → lvl < i0 + rem →
      (∀ j, i0 ≤ j → j < i0 + rem → ups j ≠ newIdx) →
      newIdx < nodes.length →
      (∀ j, i0 ≤ j → j < i0 + rem → j < lenL nodes newIdx) →
      fwdL (splice ups newIdx i0 rem nodes) newIdx lvl = fwdL nodes (ups lvl) lvl := by
  intro rem
  induction rem with
  | zero => intro i0 nodes lvl h1 h2; omega
  | succ r ih =>
    intro i0 nodes lvl h1 h2 hne hlt hslot
    simp only [splice]
    by_cases hl : lvl = i0
    · subst hl
      rw [splice_fwdL_out ups newIdx r (lvl + 1) _ newIdx lvl (by omega)]
      simp only [spliceStep]
      rw [fwdL_setFwd_ne_node _ _ _ _ _ _ (Ne.symm (hne lvl (by omega) (by omega)))]
      rw [fwdL_setFwd_self _ _ _ _ hlt (hslot lvl (by omega) (by omega))]
    · have heq : fwdL (spliceStep nodes (ups i0) newIdx i0) (ups lvl) lvl =
          fwdL nodes (ups lvl) lvl :=
        spliceStep_fwdL_ne_lvl _ _ _ _ _ _ (by omega)
      rw [ih (i0 + 1) _ lvl (by omega) (by omega)
        (fun j hj1 hj2 => hne j (by omega) (by omega))
        (by rw [spliceStep_length]; exact hlt)
        (fun j hj1 hj2 => by rw [spliceStep_lenL]; exact hslot j (by omega) (by omega))]
      exact heq

theorem splice_fwdL_upd (ups : Nat → Nat) (newIdx : Nat) :
    ∀ (rem i0 : Nat) (nodes : List SkipListNode) (lvl : Nat),
      i0 ≤ lvl → lvl < i0 + rem →
      (∀ j, i0 ≤ j → j < i0 + rem → ups j ≠ newIdx) →
      ups lvl < nodes.length →
      lvl < lenL nodes (ups lvl) →
      fwdL (splice ups newIdx i0 rem nodes) (ups lvl) lvl = some newIdx := by
  intro rem
  induction rem with
  | zero => intro i0 nodes lvl h1 h2; omega
  | succ r ih =>
    intro i0 nodes lvl h1 h2 hne hlt hslot
    simp only [splice]
    by_cases hl : lvl = i0
    · subst hl
      rw [splice_fwdL_out ups newIdx r (lvl + 1) _ (ups lvl) lvl (by omega)]
      simp only [spliceStep]
      rw [fwdL_setFwd_self _ _ _ _ (by rw [setFwd_length]; exact hlt)
        (by rw [lenL_setFwd]; exact hslot)]
    · rw [ih (i0 + 1) _ lvl (by omega) (by omega)
        (fun j hj1 hj2 => hne j (by omega) (by omega))
        (by rw [spliceStep_length]; exact hlt)
        (by rw [spliceStep_lenL]; exact hslot)]

theorem splice_fwdL_other (ups : Nat → Nat) (newIdx : Nat) :
    ∀ (rem i0 : Nat) (nodes : List SkipListNode) (x lvl : Nat),
      i0 ≤ lvl → lvl < i0 + rem →
      x ≠ newIdx → x ≠ ups lvl →
      fwdL (splice ups newIdx i0 rem nodes) x lvl = fwdL nodes x lvl := by
  intro rem
  induction rem with
  | zero => intro i0 nodes x lvl h1 h2; omega
  | succ r ih =>
    intro i0 nodes x lvl h1 h2 hxn hxu
    simp only [splice]
    by_cases hl : lvl = i0
    · subst hl
      rw [splice_fwdL_out ups newIdx r (lvl + 1) _ x lvl (by omega)]
      simp only [spliceStep]
      rw [fwdL_setFwd_ne_node _ _ _ _ _ _ hxu, fwdL_setFwd_ne_node _ _ _ _ _ _ hxn]
    · rw [ih (i0 + 1) _ x lvl (by omega) (by omega) hxn hxu]
      exact spliceStep_fwdL_ne_lvl _ _ _ _ _ _ (by omega)

/-! ### Arena append lemmas -/

theorem keyL_append_old (nodes : List SkipListNode) (nn : SkipListNode) (x : Nat)
    (hx : x < nodes.length) : keyL (nodes ++ [nn]) x = keyL nodes x := by
  rw [keyL, keyL, List.get?_append hx]

theorem valueL_append_old (nodes : List SkipListNode) (nn : SkipListNode) (x : Nat)
    (hx : x < nodes.length) : valueL (nodes ++ [nn]) x = valueL nodes x := by
  rw [valueL, valueL, List.get?_append hx]

theorem lenL_append_old (nodes : List SkipListNode) (nn : SkipListNode) (x : Nat)
    (hx : x < nodes.length) : lenL (nodes ++ [nn]) x = lenL nodes x := by
  rw [lenL, lenL, List.get?_append hx]

theorem fwdL_append_old (nodes : List SkipListNode) (nn : SkipListNode) (x lvl : Nat)
    (hx : x < nodes.length) : fwdL (nodes ++ [nn]) x lvl = fwdL nodes x lvl := by
  rw [fwdL, fwdL, List.get?_append hx]

theorem keyL_append_new (nodes : List SkipListNode) (nn : SkipListNode) :
    keyL (nodes ++ [nn]) nodes.length = nn.key := by
  rw [keyL, List.get?_concat_length]

theorem valueL_append_new (nodes : List SkipListNode) (nn : SkipListNode) :
    valueL (nodes ++ [nn]) nodes.length = nn.value := by
  rw [valueL, List.get?_concat_length]

theorem lenL_append_new (nodes : List SkipListNode) (nn : SkipListNode) :
    lenL (nodes ++ [nn]) nodes.length = nn.forward.length := by
  rw [lenL, List.get?_concat_length]

theorem fwdL_append_new (nodes : List SkipListNode) (nn : SkipListNode) (lvl : Nat) :
    fwdL (nodes ++ [nn]) nodes.length lvl = nn.forward.getD lvl none := by
  rw [fwdL, List.get?_concat_length]

/-! ### random_level bound and insert_word branch equations -/

theorem random_level_go_le (p : ℚ) (draws : Nat → ℚ) :
    ∀ (rem k level : Nat), random_level_go p draws k level rem ≤ level + rem := by
  intro rem
  induction rem with
  | zero => intro k level; simp [random_level_go]
  | succ r ih =>
    intro k level
    simp only [random_level_go]
    by_cases hd : draws k < p
    · rw [if_pos hd]
      have := ih (k + 1) (level + 1)
      omega
    · rw [if_neg hd]
      omega

theorem random_level_le (s : SkipList) (draws : Nat → ℚ) :
    s.random_level draws ≤ s.max_level := by
  have := random_level_go_le s.probability draws s.max_level 0 0
  simpa [SkipList.random_level] using this

theorem headD_map_range (f : Nat → Nat) (n : Nat) :
    ((List.range (n + 1)).map f).headD 0 = f 0 := by
  rw [List.range_succ_eq_map]
  simp

theorem getD_map_range (f : Nat → Nat) (n i : Nat) (hi : i < n) :
    ((List.range n).map f).getD i 0 = f i := by
  rw [getD_eq_get?, List.get?_map, List.get?_range hi]
  rfl

theorem insert_word_hit {s : SkipList} {l0 : List Nat} (h : WfWith s l0) {word : String}
    {document : Nat} {draws : Nat → ℚ} {nxt : Nat}
    (hfwd : s.fwd (predAt s l0 word 0) 0 = some nxt)
    (hkey : s.keyAt nxt = some word) :
    s.insert_word word document draws = { s with nodes := addDoc s.nodes nxt document } := by
  simp only [SkipList.insert_word]
  rw [descend_full h word, headD_map_range, hfwd]
  simp [hkey]

theorem insert_word_miss {s : SkipList} {l0 : List Nat} (h : WfWith s l0) {word : String}
    {document : Nat} {draws : Nat → ℚ}
    (hmiss : ∀ nxt, s.fwd (predAt s l0 word 0) 0 = some nxt → ¬ s.keyAt nxt = some word) :
    s.insert_word word document draws =
      s.insert_new word document (s.random_level draws)
        ((List.range (s.level + 1)).map (predAt s l0 word)) := by
  simp only [SkipList.insert_word]
  rw [descend_full h word, headD_map_range]
  cases hf : s.fwd (predAt s l0 word 0) 0 with
  | none => rfl
  | some nxt => simp [hmiss nxt hf]

theorem miss_not_word {s : SkipList} {l0 : List Nat} (h : WfWith s l0) {word : String}
    (hmiss : ∀ nxt, s.fwd (predAt s l0 word 0) 0 = some nxt → ¬ s.keyAt nxt = some word) :
    ∀ i ∈ l0, ¬ s.keyAt i = some word := by
  intro i hi hkey
  have hsplit : l0 = l0.takeWhile (qlt s word) ++ l0.dropWhile (qlt s word) := by
    rw [List.takeWhile_append_dropWhile]
  rcases List.mem_append.mp (by rw [← hsplit]; exact hi) with htw | hdw
  · exact takeWhile_not_word h word i htw hkey
  · cases hdwe : l0.dropWhile (qlt s word) with
    | nil => rw [hdwe] at hdw; simp at hdw
    | cons y ys =>
      rw [hdwe] at hdw
      rcases List.mem_cons.mp hdw with h1 | h2
      · subst h1
        have hfwd : s.fwd (predAt s l0 word 0) 0 = some i := by
          rw [pred0_succ h word, hdwe]
          rfl
        exact hmiss i hfwd hkey
      · exact dropWhile_tail_not_word h word y ys hdwe i h2 hkey

theorem find?_middle_skip {α : Type} (p : α → Bool) (l1 l2 : List α) (x : α)
    (hx : p x = false) :
    (l1 ++ x :: l2).find? p = (l1 ++ l2).find? p := by
  rw [List.find?_append, List.find?_append, List.find?_cons, hx]

theorem find?_key_congr {s s' : SkipList} {t : String} :
    ∀ (l : List Nat), (∀ i ∈ l, s'.keyAt i = s.keyAt i) →
      l.find? (fun i => decide (s'.keyAt i = some t)) =
        l.find? (fun i => decide (s.keyAt i = some t)) := by
  intro l
  induction l with
  | nil => intro _; rfl
  | cons a l ih =>
    intro hk
    rw [List.find?_cons, List.find?_cons, hk a (by simp),
      ih (fun i hi => hk i (by simp [hi]))]

/-! ### The postings-update branch of insert_word -/

theorem mk_keyAt (s : SkipList) (nodes : List SkipListNode) (j : Nat) :
    SkipList.keyAt { s with nodes := nodes } j = keyL nodes j := rfl

theorem mk_fwd (s : SkipList) (nodes : List SkipListNode) (j lvl : Nat) :
    SkipList.fwd { s with nodes := nodes } j lvl = fwdL nodes j lvl := rfl

theorem mk_valueAt (s : SkipList) (nodes : List SkipListNode) (j : Nat) :
    SkipList.valueAt { s with nodes := nodes } j = valueL nodes j := rfl

theorem mk_nodeLen (s : SkipList) (nodes : List SkipListNode) (j : Nat) :
    SkipList.nodeLen { s with nodes := nodes } j = lenL nodes j := rfl

theorem head?_dropWhile_fwd {s : SkipList} {l0 : List Nat} (h : WfWith s l0) {word : String}
    {nxt : Nat} (hfwd : s.fwd (predAt s l0 word 0) 0 = some nxt) :
    ∃ ys, l0.dropWhile (qlt s word) = nxt :: ys := by
  rw [pred0_succ h word] at hfwd
  cases hdw : l0.dropWhile (qlt s word) with
  | nil => rw [hdw] at hfwd; exact Option.noConfusion hfwd
  | cons y ys =>
    rw [hdw] at hfwd
    have : y = nxt := Option.some.inj hfwd
    subst this
    exact ⟨ys, rfl⟩

theorem find?_word_eq {s : SkipList} {l0 : List Nat} (h : WfWith s l0) {word : String}
    {nxt : Nat} (hfwd : s.fwd (predAt s l0 word 0) 0 = some nxt)
    (hkey : s.keyAt nxt = some word) :
    l0.find? (fun i => decide (s.keyAt i = some word)) = some nxt := by
  obtain ⟨ys, hdw⟩ := head?_dropWhile_fwd h hfwd
  have hsplit : l0 = l0.takeWhile (qlt s word) ++ l0.dropWhile (qlt s word) := by
    rw [List.takeWhile_append_dropWhile]
  conv_lhs => rw [hsplit]
  rw [find?_append_none _ _ _ (fun x hx => by
    simp only [decide_eq_false_iff_not]
    exact takeWhile_not_word h word x hx)]
  rw [hdw, List.find?_cons, decide_eq_true hkey]

theorem mem_l0_of_fwd {s : SkipList} {l0 : List Nat} (h : WfWith s l0) {word : String}
    {nxt : Nat} (hfwd : s.fwd (predAt s l0 word 0) 0 = some nxt) : nxt ∈ l0 := by
  obtain ⟨ys, hdw⟩ := head?_dropWhile_fwd h hfwd
  have : nxt ∈ l0.dropWhile (qlt s word) := by rw [hdw]; simp
  exact (List.dropWhile_sublist _).subset this

theorem insert_hit_correct {s : SkipList} {l0 : List Nat} (h : WfWith s l0) {word : String}
    {doc nxt : Nat}
    (hfwd : s.fwd (predAt s l0 word 0) 0 = some nxt)
    (hkey : s.keyAt nxt = some word) :
    WfWith { s with nodes := addDoc s.nodes nxt doc } l0 ∧
    (∀ t, chainLookup { s with nodes := addDoc s.nodes nxt doc } l0 t =
      if t = word then insert doc (chainLookup s l0 t) else chainLookup s l0 t) ∧
    (∀ t, memKey { s with nodes := addDoc s.nodes nxt doc } l0 t ↔
      (t = word ∨ memKey s l0 t)) := by
  have hnxt : nxt ∈ l0 := mem_l0_of_fwd h hfwd
  have hnlt : nxt < s.nodes.length := h.mem_lt hnxt
  have hkeys : ∀ j, SkipList.keyAt { s with nodes := addDoc s.nodes nxt doc } j = s.keyAt j := by
    intro j
    rw [mk_keyAt, keyL_addDoc]
    rfl
  have hfwds : ∀ j lvl, SkipList.fwd { s with nodes := addDoc s.nodes nxt doc } j lvl =
      s.fwd j lvl := by
    intro j lvl
    rw [mk_fwd, fwdL_addDoc]
    rfl
  have hlens : ∀ j, SkipList.nodeLen { s with nodes := addDoc s.nodes nxt doc } j =
      s.nodeLen j := by
    intro j
    rw [mk_nodeLen, lenL_addDoc]
    rfl
  have hkeyD : ∀ j, keyD { s with nodes := addDoc s.nodes nxt doc } j = keyD s j := by
    intro j
    rw [keyD, keyD, hkeys]
  have hlen : ({ s with nodes := addDoc s.nodes nxt doc } : SkipList).nodes.length =
      s.nodes.length := addDoc_length s.nodes nxt doc
  have hchain_eq : ∀ lvl, levelChain { s with nodes := addDoc s.nodes nxt doc } l0 lvl =
      levelChain s l0 lvl := by
    intro lvl
    refine List.filter_congr ?_
    intro x hx
    rw [hlens]
  refine ⟨?_, ?_, ?_⟩
  · refine
      { hdr0 := by rw [hlen]; exact h.hdr0
        hdrKey := by rw [hkeys]; exact h.hdrKey
        hdrLen := by rw [hlens]; exact h.hdrLen
        levelLe := h.levelLe
        mem_iff := by intro i; rw [hlen]; exact h.mem_iff i
        nodup := h.nodup
        keysSome := by intro i hi; rw [hkeys]; exact h.keysSome i hi
        sorted := by
          refine h.sorted.imp ?_
          intro a b hab
          rw [hkeyD, hkeyD]
          exact hab
        lensPos := by intro i hi; rw [hlens]; exact h.lensPos i hi
        lensLe := by intro i hi; rw [hlens]; exact h.lensLe i hi
        chains := ?_ }
    intro lvl
    rw [hchain_eq lvl]
    exact chainSeg_congr (fun x _ => hfwds x lvl) (h.chains lvl)
  · intro t
    have hfind : l0.find? (fun i =>
        decide (SkipList.keyAt { s with nodes := addDoc s.nodes nxt doc } i = some t)) =
        l0.find? (fun i => decide (s.keyAt i = some t)) :=
      find?_key_congr l0 (fun i _ => hkeys i)
    by_cases ht : t = word
    · subst ht
      rw [if_pos rfl, chainLookup, chainLookup, hfind, find?_word_eq h hfwd hkey]
      show SkipList.valueAt { s with nodes := addDoc s.nodes nxt doc } nxt =
        insert doc (s.valueAt nxt)
      rw [mk_valueAt, valueL_addDoc_self _ _ _ hnlt]
      rfl
    · rw [if_neg ht, chainLookup, chainLookup, hfind]
      cases hf : l0.find? (fun i => decide (s.keyAt i = some t)) with
      | none => rfl
      | some j =>
        have hpj := List.find?_some hf
        have hkj : s.keyAt j = some t := of_decide_eq_true hpj
        have hjne : j ≠ nxt := by
          intro hh
          subst hh
          rw [hkey] at hkj
          exact ht (Option.some.inj hkj).symm
        show SkipList.valueAt { s with nodes := addDoc s.nodes nxt doc } j = s.valueAt j
        rw [mk_valueAt, valueL_addDoc_ne _ _ _ _ hjne]
        rfl
  · intro t
    constructor
    · intro ⟨i, hi, hik⟩
      rw [hkeys] at hik
      exact Or.inr ⟨i, hi, hik⟩
    · intro hor
      rcases hor with hw | ⟨i, hi, hik⟩
      · subst hw
        exact ⟨nxt, hnxt, by rw [hkeys]; exact hkey⟩
      · exact ⟨i, hi, by rw [hkeys]; exact hik⟩

/-! ### The node-creation branch of insert_word -/

theorem insert_new_def (s : SkipList) (word : String) (doc nl : Nat) (ups : List Nat) :
    s.insert_new word doc nl ups =
      { s with
        nodes := splice (ups2F s ups) s.nodes.length 0 (nl + 1)
          (s.nodes ++ [newNode word doc nl])
        level := max s.level nl } := rfl

theorem predAt_lt_len {s : SkipList} {l0 : List Nat} (h : WfWith s l0) (word : String)
    (lvl : Nat) : predAt s l0 word lvl < s.nodes.length := by
  rcases predAt_cases l0 word lvl with h0 | ⟨hmem, _⟩
  · rw [h0]; exact h.hdr0
  · exact h.mem_lt ((levelChain_sublist s l0 lvl).subset hmem)

theorem predAt_slot {s : SkipList} {l0 : List Nat} (h : WfWith s l0) (word : String)
    {lvl : Nat} (hlvl : lvl ≤ s.max_level) :
    lvl < s.nodeLen (predAt s l0 word lvl) := by
  rcases predAt_cases l0 word lvl with h0 | ⟨hmem, _⟩
  · rw [h0, h.hdrLen]; omega
  · have := (List.mem_filter.mp hmem).2
    simpa using this

theorem insert_new_length (s : SkipList) (word : String) (doc nl : Nat) (ups : List Nat) :
    (s.insert_new word doc nl ups).nodes.length = s.nodes.length + 1 := by
  show (splice (ups2F s ups) s.nodes.length 0 (nl + 1)
    (s.nodes ++ [newNode word doc nl])).length = s.nodes.length + 1
  rw [splice_length]
  simp

theorem insert_new_keyAt (s : SkipList) (word : String) (doc nl : Nat) (ups : List Nat)
    (j : Nat) :
    (s.insert_new word doc nl ups).keyAt j = keyL (s.nodes ++ [newNode word doc nl]) j := by
  show keyL (splice (ups2F s ups) s.nodes.length 0 (nl + 1)
    (s.nodes ++ [newNode word doc nl])) j = keyL (s.nodes ++ [newNode word doc nl]) j
  rw [splice_keyL]

theorem insert_new_keyAt_old (s : SkipList) (word : String) (doc nl : Nat) (ups : List Nat)
    {j : Nat} (hj : j < s.nodes.length) :
    (s.insert_new word doc nl ups).keyAt j = s.keyAt j := by
  rw [insert_new_keyAt, keyL_append_old _ _ _ hj]
  rfl

theorem insert_new_keyAt_new (s : SkipList) (word : String) (doc nl : Nat) (ups : List Nat) :
    (s.insert_new word doc nl ups).keyAt s.nodes.length = some word := by
  rw [insert_new_keyAt, keyL_append_new]
  rfl

theorem insert_new_valueAt (s : SkipList) (word : String) (doc nl : Nat) (ups : List Nat)
    (j : Nat) :
    (s.insert_new word doc nl ups).valueAt j =
      valueL (s.nodes ++ [newNode word doc nl]) j := by
  show valueL (splice (ups2F s ups) s.nodes.length 0 (nl + 1)
    (s.nodes ++ [newNode word doc nl])) j = valueL (s.nodes ++ [newNode word doc nl]) j
  rw [splice_valueL]

theorem insert_new_valueAt_old (s : SkipList) (word : String) (doc nl : Nat) (ups : List Nat)
    {j : Nat} (hj : j < s.nodes.length) :
    (s.insert_new word doc nl ups).valueAt j = s.valueAt j := by
  rw [insert_new_valueAt, valueL_append_old _ _ _ hj]
  rfl

theorem insert_new_valueAt_new (s : SkipList) (word : String) (doc nl : Nat) (ups : List Nat) :
    (s.insert_new word doc nl ups).valueAt s.nodes.length = {doc} := by
  rw [insert_new_valueAt, valueL_append_new]
  rfl

theorem insert_new_nodeLen (s : SkipList) (word : String) (doc nl : Nat) (ups : List Nat)
    (j : Nat) :
    (s.insert_new word doc nl ups).nodeLen j = lenL (s.nodes ++ [newNode word doc nl]) j := by
  show lenL (splice (ups2F s ups) s.nodes.length 0 (nl + 1)
    (s.nodes ++ [newNode word doc nl])) j = lenL (s.nodes ++ [newNode word doc nl]) j
  rw [splice_lenL]

theorem insert_new_nodeLen_old (s : SkipList) (word : String) (doc nl : Nat) (ups : List Nat)
    {j : Nat} (hj : j < s.nodes.length) :
    (s.insert_new word doc nl ups).nodeLen j = s.nodeLen j := by
  rw [insert_new_nodeLen, lenL_append_old _ _ _ hj]
  rfl

theorem insert_new_nodeLen_new (s : SkipList) (word : String) (doc nl : Nat) (ups : List Nat) :
    (s.insert_new word doc nl ups).nodeLen s.nodes.length = nl + 1 := by
  rw [insert_new_nodeLen, lenL_append_new]
  simp [newNode]

theorem ups2F_pred {s : SkipList} {l0 : List Nat} (h : WfWith s l0) (word : String) (j : Nat) :
    ups2F s ((List.range (s.level + 1)).map (predAt s l0 word)) j = predAt s l0 word j := by
  rw [ups2F]
  by_cases hj : j ≤ s.level
  · rw [if_pos hj, getD_map_range _ _ _ (by omega)]
  · rw [if_neg hj]
    exact (predAt_hi h word (by omega)).symm

theorem insert_new_fwd_hi (s : SkipList) (word : String) (doc nl : Nat) (ups : List Nat)
    {x lvl : Nat} (hlvl : nl + 1 ≤ lvl) (hx : x < s.nodes.length) :
    (s.insert_new word doc nl ups).fwd x lvl = s.fwd x lvl := by
  show fwdL (splice (ups2F s ups) s.nodes.length 0 (nl + 1)
    (s.nodes ++ [newNode word doc nl])) x lvl = s.fwd x lvl
  rw [splice_fwdL_out _ _ (nl + 1) 0 _ x lvl (Or.inr (by omega))]
  exact fwdL_append_old _ _ _ _ hx

theorem insert_new_fwd_upd {s : SkipList} {l0 : List Nat} (h : WfWith s l0) (word : String)
    (doc nl : Nat) (hnl : nl ≤ s.max_level) {lvl : Nat} (hlvl : lvl ≤ nl) :
    (s.insert_new word doc nl ((List.range (s.level + 1)).map (predAt s l0 word))).fwd
      (predAt s l0 word lvl) lvl = some s.nodes.length := by
  show fwdL (splice (ups2F s ((List.range (s.level + 1)).map (predAt s l0 word)))
    s.nodes.length 0 (nl + 1) (s.nodes ++ [newNode word doc nl]))
    (predAt s l0 word lvl) lvl = some s.nodes.length
  rw [← ups2F_pred h word lvl]
  refine splice_fwdL_upd _ _ (nl + 1) 0 _ lvl (by omega) (by omega) ?_ ?_ ?_
  · intro j hj1 hj2
    rw [ups2F_pred h word j]
    exact Nat.ne_of_lt (predAt_lt_len h word j)
  · rw [ups2F_pred h word lvl]
    have := predAt_lt_len h word lvl
    rw [List.length_append]
    simp
    omega
  · rw [ups2F_pred h word lvl, lenL_append_old _ _ _ (predAt_lt_len h word lvl)]
    exact predAt_slot h word (le_trans hlvl hnl)

theorem insert_new_fwd_new {s : SkipList} {l0 : List Nat} (h : WfWith s l0) (word : String)
    (doc nl : Nat) {lvl : Nat} (hlvl : lvl ≤ nl) :
    (s.insert_new word doc nl ((List.range (s.level + 1)).map (predAt s l0 word))).fwd
      s.nodes.length lvl = s.fwd (predAt s l0 word lvl) lvl := by
  show fwdL (splice (ups2F s ((List.range (s.level + 1)).map (predAt s l0 word)))
    s.nodes.length 0 (nl + 1) (s.nodes ++ [newNode word doc nl]))
    s.nodes.length lvl = s.fwd (predAt s l0 word lvl) lvl
  rw [splice_fwdL_new _ _ (nl + 1) 0 _ lvl (by omega) (by omega) ?_ ?_ ?_]
  · rw [ups2F_pred h word lvl]
    exact fwdL_append_old _ _ _ _ (predAt_lt_len h word lvl)
  · intro j hj1 hj2
    rw [ups2F_pred h word j]
    exact Nat.ne_of_lt (predAt_lt_len h word j)
  · rw [List.length_append]
    simp
  · intro j hj1 hj2
    rw [lenL_append_new]
    simp [newNode]
    omega

theorem insert_new_fwd_other {s : SkipList} {l0 : List Nat} (h : WfWith s l0) (word : String)
    (doc nl : Nat) {x lvl : Nat} (hlvl : lvl ≤ nl) (hx : x < s.nodes.length)
    (hxu : x ≠ predAt s l0 word lvl) :
    (s.insert_new word doc nl ((List.range (s.level + 1)).map (predAt s l0 word))).fwd
      x lvl = s.fwd x lvl := by
  show fwdL (splice (ups2F s ((List.range (s.level + 1)).map (predAt s l0 word)))
    s.nodes.length 0 (nl + 1) (s.nodes ++ [newNode word doc nl])) x lvl = s.fwd x lvl
  rw [splice_fwdL_other _ _ (nl + 1) 0 _ x lvl (by omega) (by omega)
    (Nat.ne_of_lt hx) (by rw [ups2F_pred h word lvl]; exact hxu)]
  exact fwdL_append_old _ _ _ _ hx

theorem insert_new_level_eq (s : SkipList) (word : String) (doc nl : Nat) (ups : List Nat) :
    (s.insert_new word doc nl ups).level = max s.level nl := rfl

theorem insert_new_max_level_eq (s : SkipList) (word : String) (doc nl : Nat)
    (ups : List Nat) : (s.insert_new word doc nl ups).max_level = s.max_level := rfl


theorem insert_new_wf {s : SkipList} {l0 : List Nat} (h : WfWith s l0) (word : String)
    (doc nl : Nat) (hnl : nl ≤ s.max_level)
    (hnotin : ∀ i ∈ l0, ¬ s.keyAt i = some word)
    (s' : SkipList)
    (hs' : s' = s.insert_new word doc nl ((List.range (s.level + 1)).map (predAt s l0 word))) :
    WfWith s' (l0.takeWhile (qlt s word) ++ s.nodes.length :: l0.dropWhile (qlt s word)) := by
  have hlen' : s'.nodes.length = s.nodes.length + 1 := by
    rw [hs']; exact insert_new_length s word doc nl _
  have hkey_old : ∀ j, j < s.nodes.length → s'.keyAt j = s.keyAt j := by
    intro j hj; rw [hs']; exact insert_new_keyAt_old s word doc nl _ hj
  have hkey_new : s'.keyAt s.nodes.length = some word := by
    rw [hs']; exact insert_new_keyAt_new s word doc nl _
  have hnLen_old : ∀ j, j < s.nodes.length → s'.nodeLen j = s.nodeLen j := by
    intro j hj; rw [hs']; exact insert_new_nodeLen_old s word doc nl _ hj
  have hnLen_new : s'.nodeLen s.nodes.length = nl + 1 := by
    rw [hs']; exact insert_new_nodeLen_new s word doc nl _
  have hfwd_hi : ∀ x lvl, nl + 1 ≤ lvl → x < s.nodes.length → s'.fwd x lvl = s.fwd x lvl := by
    intro x lvl h1 h2; rw [hs']; exact insert_new_fwd_hi s word doc nl _ h1 h2
  have hfwd_upd : ∀ lvl, lvl ≤ nl → s'.fwd (predAt s l0 word lvl) lvl =
      some s.nodes.length := by
    intro lvl h1; rw [hs']; exact insert_new_fwd_upd h word doc nl hnl h1
  have hfwd_new : ∀ lvl, lvl ≤ nl → s'.fwd s.nodes.length lvl =
      s.fwd (predAt s l0 word lvl) lvl := by
    intro lvl h1; rw [hs']; exact insert_new_fwd_new h word doc nl h1
  have hfwd_other : ∀ x lvl, lvl ≤ nl → x < s.nodes.length → x ≠ predAt s l0 word lvl →
      s'.fwd x lvl = s.fwd x lvl := by
    intro x lvl h1 h2 h3; rw [hs']; exact insert_new_fwd_other h word doc nl h1 h2 h3
  have hlevel' : s'.level = max s.level nl := by rw [hs']; rfl
  have hmax' : s'.max_level = s.max_level := by rw [hs']; rfl
  have hTWsub : ∀ x ∈ l0.takeWhile (qlt s word), x ∈ l0 :=
    fun x hx => (List.takeWhile_sublist _).subset hx
  have hDWsub : ∀ x ∈ l0.dropWhile (qlt s word), x ∈ l0 :=
    fun x hx => (List.dropWhile_sublist _).subset hx
  have hsplitl : l0.takeWhile (qlt s word) ++ l0.dropWhile (qlt s word) = l0 := by
    rw [List.takeWhile_append_dropWhile]
  have hTWlt : ∀ x ∈ l0.takeWhile (qlt s word), keyD s x < word := by
    intro x hx
    have := List.mem_takeWhile_imp hx
    simpa [qlt] using this
  have hDWnotlt : ∀ x ∈ l0.dropWhile (qlt s word), ¬ keyD s x < word :=
    fun x hx => dropWhile_ge h.sorted x hx
  have hDWgt : ∀ x ∈ l0.dropWhile (qlt s word), word < keyD s x := by
    intro x hx
    have h2 : keyD s x ≠ word := by
      intro he
      exact hnotin x (hDWsub x hx) (by rw [h.keyAt_mem (hDWsub x hx), he])
    exact lt_of_le_of_ne (not_lt.mp (hDWnotlt x hx)) (Ne.symm h2)
  have hNInotin : s.nodes.length ∉ l0 := by
    intro hmem
    have := h.mem_lt hmem
    omega
  have hnd2 : (l0.takeWhile (qlt s word) ++ l0.dropWhile (qlt s word)).Nodup := by
    rw [hsplitl]; exact h.nodup
  obtain ⟨hndTW, hndDW, hdisj⟩ := List.nodup_append.mp hnd2
  have hkeyD_old : ∀ j ∈ l0, keyD s' j = keyD s j := by
    intro j hj
    rw [keyD, keyD, hkey_old j (h.mem_lt hj)]
  have hkeyD_new : keyD s' s.nodes.length = word := by
    rw [keyD, hkey_new]
    rfl
  refine
    { hdr0 := by rw [hlen']; omega
      hdrKey := by rw [hkey_old 0 h.hdr0]; exact h.hdrKey
      hdrLen := by rw [hnLen_old 0 h.hdr0, hmax']; exact h.hdrLen
      levelLe := by
        rw [hlevel', hmax']
        exact max_le h.levelLe hnl
      mem_iff := ?_
      nodup := ?_
      keysSome := ?_
      sorted := ?_
      lensPos := ?_
      lensLe := ?_
      chains := ?_ }
  · intro i
    rw [hlen']
    constructor
    · intro hi
      rcases List.mem_append.mp hi with h1 | h2
      · have := (h.mem_iff i).mp (hTWsub i h1)
        omega
      · rcases List.mem_cons.mp h2 with h3 | h4
        · subst h3
          have := h.hdr0
          omega
        · have := (h.mem_iff i).mp (hDWsub i h4)
          omega
    · intro hi
      by_cases hic : i = s.nodes.length
      · subst hic
        exact List.mem_append.mpr (Or.inr (List.mem_cons_self _ _))
      · have hil0 : i ∈ l0 := (h.mem_iff i).mpr ⟨hi.1, by omega⟩
        have hmm : i ∈ l0.takeWhile (qlt s word) ++ l0.dropWhile (qlt s word) := by
          rw [hsplitl]; exact hil0
        rcases List.mem_append.mp hmm with h1 | h2
        · exact List.mem_append.mpr (Or.inl h1)
        · exact List.mem_append.mpr (Or.inr (List.mem_cons_of_mem _ h2))
  · refine List.nodup_append.mpr ⟨hndTW, ?_, ?_⟩
    · exact List.nodup_cons.mpr ⟨fun hc => hNInotin (hDWsub _ hc), hndDW⟩
    · intro a ha hb
      rcases List.mem_cons.mp hb with h1 | h2
      · subst h1
        exact hNInotin (hTWsub _ ha)
      · exact hdisj ha h2
  · intro i hi
    rcases List.mem_append.mp hi with h1 | h2
    · rw [hkey_old i (h.mem_lt (hTWsub i h1))]
      exact h.keysSome i (hTWsub i h1)
    · rcases List.mem_cons.mp h2 with h3 | h4
      · subst h3
        rw [hkey_new]
        rfl
      · rw [hkey_old i (h.mem_lt (hDWsub i h4))]
        exact h.keysSome i (hDWsub i h4)
  · refine List.pairwise_append.mpr ⟨?_, ?_, ?_⟩
    · refine (h.sorted.sublist (List.takeWhile_sublist _)).imp_of_mem ?_
      intro a b ha hb hab
      rw [hkeyD_old a (hTWsub a ha), hkeyD_old b (hTWsub b hb)]
      exact hab
    · refine List.pairwise_cons.mpr ⟨?_, ?_⟩
      · intro b hb
        rw [hkeyD_new, hkeyD_old b (hDWsub b hb)]
        exact hDWgt b hb
      · refine (h.sorted.sublist (List.dropWhile_sublist _)).imp_of_mem ?_
        intro a b ha hb hab
        rw [hkeyD_old a (hDWsub a ha), hkeyD_old b (hDWsub b hb)]
        exact hab
    · intro a ha b hb
      rcases List.mem_cons.mp hb with h1 | h2
      · subst h1
        rw [hkeyD_old a (hTWsub a ha), hkeyD_new]
        exact hTWlt a ha
      · rw [hkeyD_old a (hTWsub a ha), hkeyD_old b (hDWsub b h2)]
        exact lt_trans (hTWlt a ha) (hDWgt b h2)
  · intro i hi
    rcases List.mem_append.mp hi with h1 | h2
    · rw [hnLen_old i (h.mem_lt (hTWsub i h1))]
      exact h.lensPos i (hTWsub i h1)
    · rcases List.mem_cons.mp h2 with h3 | h4
      · subst h3
        rw [hnLen_new]
        omega
      · rw [hnLen_old i (h.mem_lt (hDWsub i h4))]
        exact h.lensPos i (hDWsub i h4)
  · intro i hi
    rw [hlevel']
    rcases List.mem_append.mp hi with h1 | h2
    · rw [hnLen_old i (h.mem_lt (hTWsub i h1))]
      exact le_trans (h.lensLe i (hTWsub i h1))
        (Nat.add_le_add_right (Nat.le_max_left _ _) 1)
    · rcases List.mem_cons.mp h2 with h3 | h4
      · subst h3
        rw [hnLen_new]
        exact Nat.add_le_add_right (Nat.le_max_right _ _) 1
      · rw [hnLen_old i (h.mem_lt (hDWsub i h4))]
        exact le_trans (h.lensLe i (hDWsub i h4))
          (Nat.add_le_add_right (Nat.le_max_left _ _) 1)
  · intro lvl
    have hfTW : (l0.takeWhile (qlt s word)).filter (fun i => decide (lvl < s'.nodeLen i)) =
        (l0.takeWhile (qlt s word)).filter (fun i => decide (lvl < s.nodeLen i)) :=
      List.filter_congr fun x hx => by rw [hnLen_old x (h.mem_lt (hTWsub x hx))]
    have hfDW : (l0.dropWhile (qlt s word)).filter (fun i => decide (lvl < s'.nodeLen i)) =
        (l0.dropWhile (qlt s word)).filter (fun i => decide (lvl < s.nodeLen i)) :=
      List.filter_congr fun x hx => by rw [hnLen_old x (h.mem_lt (hDWsub x hx))]
    have hsplitchain : levelChain s l0 lvl =
        (l0.takeWhile (qlt s word)).filter (fun i => decide (lvl < s.nodeLen i)) ++
          (l0.dropWhile (qlt s word)).filter (fun i => decide (lvl < s.nodeLen i)) := by
      simp only [levelChain]
      conv_lhs => rw [← hsplitl]
      rw [List.filter_append]
    have hLCapp : levelChain s'
        (l0.takeWhile (qlt s word) ++ s.nodes.length :: l0.dropWhile (qlt s word)) lvl =
        (l0.takeWhile (qlt s word)).filter (fun i => decide (lvl < s.nodeLen i)) ++
          ((s.nodes.length :: l0.dropWhile (qlt s word)).filter
            (fun i => decide (lvl < s'.nodeLen i))) := by
      simp only [levelChain]
      rw [List.filter_append, hfTW]
    have hTWfsub : ∀ x ∈ (l0.takeWhile (qlt s word)).filter
        (fun i => decide (lvl < s.nodeLen i)), x ∈ l0.takeWhile (qlt s word) :=
      fun x hx => (List.filter_sublist _).subset hx
    have hDWfsub : ∀ x ∈ (l0.dropWhile (qlt s word)).filter
        (fun i => decide (lvl < s.nodeLen i)), x ∈ l0.dropWhile (qlt s word) :=
      fun x hx => (List.filter_sublist _).subset hx
    by_cases hlvl : lvl ≤ nl
    · have hNIin : decide (lvl < s'.nodeLen s.nodes.length) = true := by
        rw [hnLen_new]
        exact decide_eq_true (by omega)
      have hLC : levelChain s'
          (l0.takeWhile (qlt s word) ++ s.nodes.length :: l0.dropWhile (qlt s word)) lvl =
          (l0.takeWhile (qlt s word)).filter (fun i => decide (lvl < s.nodeLen i)) ++
            s.nodes.length ::
            (l0.dropWhile (qlt s word)).filter (fun i => decide (lvl < s.nodeLen i)) := by
        rw [hLCapp, List.filter_cons, hfDW, hNIin, if_pos rfl]
      rw [hLC]
      have htake : (levelChain s l0 lvl).takeWhile (qlt s word) =
          (l0.takeWhile (qlt s word)).filter (fun i => decide (lvl < s.nodeLen i)) := by
        rw [hsplitchain]
        rw [takeWhile_all_append _ _ _ (fun x hx => by
          have := hTWlt x (hTWfsub x hx)
          rw [qlt]
          exact decide_eq_true this)]
        have hdrop : ((l0.dropWhile (qlt s word)).filter
            (fun i => decide (lvl < s.nodeLen i))).takeWhile (qlt s word) = [] := by
          cases hcc : (l0.dropWhile (qlt s word)).filter
              (fun i => decide (lvl < s.nodeLen i)) with
          | nil => rfl
          | cons z zs =>
            rw [List.takeWhile_cons]
            have hz : z ∈ l0.dropWhile (qlt s word) := by
              refine hDWfsub z ?_
              rw [hcc]
              simp
            have hzq : qlt s word z = false := by
              rw [qlt]
              exact decide_eq_false (hDWnotlt z hz)
            rw [hzq]
            simp
        rw [hdrop, List.append_nil]
      have hu_last : predAt s l0 word lvl =
          ((l0.takeWhile (qlt s word)).filter
            (fun i => decide (lvl < s.nodeLen i))).getLastD 0 := by
        rw [predAt, htake]
      have hch := h.chains lvl
      rw [hsplitchain] at hch
      have hshape : (0 : Nat) :: ((l0.takeWhile (qlt s word)).filter
            (fun i => decide (lvl < s.nodeLen i)) ++
            (l0.dropWhile (qlt s word)).filter (fun i => decide (lvl < s.nodeLen i))) =
          (((0 : Nat) :: (l0.takeWhile (qlt s word)).filter
              (fun i => decide (lvl < s.nodeLen i))).dropLast ++
            [predAt s l0 word lvl]) ++
            (l0.dropWhile (qlt s word)).filter (fun i => decide (lvl < s.nodeLen i)) := by
        rw [hu_last, ← cons_eq_dropLast_append, List.cons_append]
      rw [hshape] at hch
      obtain ⟨q1, hseg1, hseg2⟩ := chainSeg_split _ (some 0) hch
      have hq1 : q1 = s.fwd (predAt s l0 word lvl) lvl := chainSeg_last hseg1
      have hnodupTWf : ((0 : Nat) :: (l0.takeWhile (qlt s word)).filter
          (fun i => decide (lvl < s.nodeLen i))).Nodup := by
        refine List.nodup_cons.mpr ⟨?_, hndTW.sublist (List.filter_sublist _)⟩
        intro hc
        have := h.mem_pos (hTWsub _ (hTWfsub _ hc))
        omega
      have hulast_mem : predAt s l0 word lvl ∉
          ((0 : Nat) :: (l0.takeWhile (qlt s word)).filter
            (fun i => decide (lvl < s.nodeLen i))).dropLast := by
        intro hc
        have hform := cons_eq_dropLast_append (0 : Nat)
          ((l0.takeWhile (qlt s word)).filter (fun i => decide (lvl < s.nodeLen i)))
        rw [← hu_last] at hform
        rw [hform] at hnodupTWf
        obtain ⟨_, _, hdisj2⟩ := List.nodup_append.mp hnodupTWf
        exact hdisj2 hc (List.mem_singleton_self _)
      have hseg1' : ChainSeg s' lvl (some 0)
          (((0 : Nat) :: (l0.takeWhile (qlt s word)).filter
            (fun i => decide (lvl < s.nodeLen i))).dropLast ++ [predAt s l0 word lvl])
          (some s.nodes.length) := by
        refine chainSeg_retarget _ _ hseg1 ?_ (hfwd_upd lvl hlvl)
        intro x hx
        have hx0 : x ∈ (0 : Nat) :: (l0.takeWhile (qlt s word)).filter
            (fun i => decide (lvl < s.nodeLen i)) := (List.dropLast_sublist _).subset hx
        have hxlt : x < s.nodes.length := by
          rcases List.mem_cons.mp hx0 with h1 | h2
          · subst h1
            exact h.hdr0
          · exact h.mem_lt (hTWsub _ (hTWfsub _ h2))
        have hxne : x ≠ predAt s l0 word lvl := by
          intro he
          rw [← he] at hulast_mem
          exact hulast_mem hx
        exact hfwd_other x lvl hlvl hxlt hxne
      have hseg2' : ChainSeg s' lvl q1
          ((l0.dropWhile (qlt s word)).filter (fun i => decide (lvl < s.nodeLen i))) none := by
        refine chainSeg_congr ?_ hseg2
        intro x hx
        have hxDW : x ∈ l0.dropWhile (qlt s word) := hDWfsub x hx
        have hxlt : x < s.nodes.length := h.mem_lt (hDWsub _ hxDW)
        have hxne : x ≠ predAt s l0 word lvl := by
          intro he
          rw [hu_last] at he
          cases hTWfc : (l0.takeWhile (qlt s word)).filter
              (fun i => decide (lvl < s.nodeLen i)) with
          | nil =>
            rw [hTWfc, List.getLastD_nil] at he
            have := h.mem_pos (hDWsub _ hxDW)
            omega
          | cons a tl =>
            rw [hTWfc] at he
            have hmem := getLastD_mem_cons a tl 0
            rw [← he] at hmem
            have hxTW : x ∈ l0.takeWhile (qlt s word) := by
              refine hTWfsub x ?_
              rw [hTWfc]
              exact hmem
            exact hdisj hxTW hxDW
        exact hfwd_other x lvl hlvl hxlt hxne
      have hfwdNI : s'.fwd s.nodes.length lvl = q1 := by
        rw [hfwd_new lvl hlvl, hq1]
      have hsegNI : ChainSeg s' lvl (some s.nodes.length) [s.nodes.length] q1 := by
        refine ChainSeg.cons s.nodes.length [] q1 ?_
        rw [hfwdNI]
        exact ChainSeg.nil q1
      have hall := chainSeg_append hseg1' (chainSeg_append hsegNI hseg2')
      have hfinal : ((((0 : Nat) :: (l0.takeWhile (qlt s word)).filter
            (fun i => decide (lvl < s.nodeLen i))).dropLast ++
            [predAt s l0 word lvl]) ++
            ([s.nodes.length] ++ (l0.dropWhile (qlt s word)).filter
              (fun i => decide (lvl < s.nodeLen i)))) =
          0 :: ((l0.takeWhile (qlt s word)).filter (fun i => decide (lvl < s.nodeLen i)) ++
            s.nodes.length :: (l0.dropWhile (qlt s word)).filter
              (fun i => decide (lvl < s.nodeLen i))) := by
        rw [hu_last, ← cons_eq_dropLast_append]
        simp
      rw [hfinal] at hall
      exact hall
    · have hNIfalse : decide (lvl < s'.nodeLen s.nodes.length) = false := by
        rw [hnLen_new]
        exact decide_eq_false (by omega)
      have hLC : levelChain s'
          (l0.takeWhile (qlt s word) ++ s.nodes.length :: l0.dropWhile (qlt s word)) lvl =
          levelChain s l0 lvl := by
        rw [hLCapp, List.filter_cons, hNIfalse, if_neg Bool.false_ne_true, hfDW,
          ← hsplitchain]
      rw [hLC]
      refine chainSeg_congr ?_ (h.chains lvl)
      intro x hx
      rcases List.mem_cons.mp hx with h1 | h2
      · subst h1
        exact hfwd_hi 0 lvl (by omega) h.hdr0
      · exact hfwd_hi x lvl (by omega) (h.mem_lt ((levelChain_sublist s l0 lvl).subset h2))

theorem insert_new_lookup {s : SkipList} {l0 : List Nat} (h : WfWith s l0) (word : String)
    (doc nl : Nat)
    (hnotin : ∀ i ∈ l0, ¬ s.keyAt i = some word)
    (s' : SkipList)
    (hs' : s' = s.insert_new word doc nl ((List.range (s.level + 1)).map (predAt s l0 word))) :
    (∀ t, chainLookup s'
        (l0.takeWhile (qlt s word) ++ s.nodes.length :: l0.dropWhile (qlt s word)) t =
      if t = word then insert doc (chainLookup s l0 t) else chainLookup s l0 t) ∧
    (∀ t, memKey s'
        (l0.takeWhile (qlt s word) ++ s.nodes.length :: l0.dropWhile (qlt s word)) t ↔
      (t = word ∨ memKey s l0 t)) := by
  have hkey_old : ∀ j, j < s.nodes.length → s'.keyAt j = s.keyAt j := by
    intro j hj; rw [hs']; exact insert_new_keyAt_old s word doc nl _ hj
  have hkey_new : s'.keyAt s.nodes.length = some word := by
    rw [hs']; exact insert_new_keyAt_new s word doc nl _
  have hval_old : ∀ j, j < s.nodes.length → s'.valueAt j = s.valueAt j := by
    intro j hj; rw [hs']; exact insert_new_valueAt_old s word doc nl _ hj
  have hval_new : s'.valueAt s.nodes.length = {doc} := by
    rw [hs']; exact insert_new_valueAt_new s word doc nl _
  have hTWsub : ∀ x ∈ l0.takeWhile (qlt s word), x ∈ l0 :=
    fun x hx => (List.takeWhile_sublist _).subset hx
  have hDWsub : ∀ x ∈ l0.dropWhile (qlt s word), x ∈ l0 :=
    fun x hx => (List.dropWhile_sublist _).subset hx
  have hsplitl : l0.takeWhile (qlt s word) ++ l0.dropWhile (qlt s word) = l0 := by
    rw [List.takeWhile_append_dropWhile]
  refine ⟨?_, ?_⟩
  · intro t
    by_cases ht : t = word
    · subst ht
      have hTWfail : ∀ x ∈ l0.takeWhile (qlt s t),
          (fun i => decide (s'.keyAt i = some t)) x = false := by
        intro x hx
        have hx' : s'.keyAt x = s.keyAt x := hkey_old x (h.mem_lt (hTWsub x hx))
        simp only [hx', decide_eq_false_iff_not]
        exact takeWhile_not_word h t x hx
      have hfind1 : (l0.takeWhile (qlt s t) ++ s.nodes.length ::
          l0.dropWhile (qlt s t)).find? (fun i => decide (s'.keyAt i = some t)) =
          some s.nodes.length := by
        rw [find?_append_none _ _ _ hTWfail, List.find?_cons, decide_eq_true hkey_new]
      have hfind2 : l0.find? (fun i => decide (s.keyAt i = some t)) = none := by
        rw [List.find?_eq_none]
        intro x hx
        simpa using hnotin x hx
      rw [if_pos rfl, chainLookup, chainLookup, hfind1, hfind2]
      show s'.valueAt s.nodes.length = insert doc ∅
      rw [hval_new]
      simp
    · have hNIfail : decide (s'.keyAt s.nodes.length = some t) = false := by
        rw [hkey_new]
        refine decide_eq_false ?_
        intro hc
        exact ht (Option.some.inj hc).symm
      rw [if_neg ht, chainLookup, chainLookup,
        find?_middle_skip (fun i => decide (s'.keyAt i = some t))
          (l0.takeWhile (qlt s word)) (l0.dropWhile (qlt s word)) s.nodes.length hNIfail,
        hsplitl, find?_key_congr l0 (fun i hi => hkey_old i (h.mem_lt hi))]
      cases hf : l0.find? (fun i => decide (s.keyAt i = some t)) with
      | none => rfl
      | some j =>
        have hj : j ∈ l0 := List.mem_of_find?_eq_some hf
        show s'.valueAt j = s.valueAt j
        exact hval_old j (h.mem_lt hj)
  · intro t
    constructor
    · rintro ⟨i, hi, hik⟩
      rcases List.mem_append.mp hi with h1 | h2
      · right
        refine ⟨i, hTWsub i h1, ?_⟩
        rw [hkey_old i (h.mem_lt (hTWsub i h1))] at hik
        exact hik
      · rcases List.mem_cons.mp h2 with h3 | h4
        · subst h3
          left
          rw [hkey_new] at hik
          exact (Option.some.inj hik).symm
        · right
          refine ⟨i, hDWsub i h4, ?_⟩
          rw [hkey_old i (h.mem_lt (hDWsub i h4))] at hik
          exact hik
    · intro hor
      rcases hor with hw | ⟨i, hi, hik⟩
      · subst hw
        exact ⟨s.nodes.length, List.mem_append.mpr (Or.inr (List.mem_cons_self _ _)), hkey_new⟩
      · have hmm : i ∈ l0.takeWhile (qlt s word) ++ l0.dropWhile (qlt s word) := by
          rw [hsplitl]; exact hi
        rcases List.mem_append.mp hmm with h1 | h2
        · refine ⟨i, List.mem_append.mpr (Or.inl h1), ?_⟩
          rw [hkey_old i (h.mem_lt hi)]
          exact hik
        · refine ⟨i, List.mem_append.mpr (Or.inr (List.mem_cons_of_mem _ h2)), ?_⟩
          rw [hkey_old i (h.mem_lt hi)]
          exact hik

/-! ### Insertion sequences -/

theorem insert_word_correct {s : SkipList} {l0 : List Nat} (h : WfWith s l0) (word : String)
    (doc : Nat) (draws : Nat → ℚ) :
    ∃ l0', WfWith (s.insert_word word doc draws) l0' ∧
      (∀ t, chainLookup (s.insert_word word doc draws) l0' t =
        if t = word then insert doc (chainLookup s l0 t) else chainLookup s l0 t) ∧
      (∀ t, memKey (s.insert_word word doc draws) l0' t ↔ (t = word ∨ memKey s l0 t)) := by
  by_cases hhit : ∃ nxt, s.fwd (predAt s l0 word 0) 0 = some nxt ∧ s.keyAt nxt = some word
  · obtain ⟨nxt, hfwd, hkey⟩ := hhit
    rw [insert_word_hit h hfwd hkey]
    obtain ⟨hwf, hcl, hmk⟩ := insert_hit_correct h hfwd hkey
    exact ⟨l0, hwf, hcl, hmk⟩
  · push_neg at hhit
    have hnotin := miss_not_word h hhit
    rw [insert_word_miss h hhit]
    refine ⟨l0.takeWhile (qlt s word) ++ s.nodes.length :: l0.dropWhile (qlt s word),
      ?_, ?_, ?_⟩
    · exact insert_new_wf h word doc (s.random_level draws) (random_level_le s draws)
        hnotin _ rfl
    · exact (insert_new_lookup h word doc (s.random_level draws) hnotin _ rfl).1
    · exact (insert_new_lookup h word doc (s.random_level draws) hnotin _ rfl).2

theorem insertSeq_correct {s : SkipList} {l0 : List Nat} (h : WfWith s l0)
    (l : List (String × Nat × (Nat → ℚ))) :
    ∃ l0', WfWith (s.insertSeq l) l0' ∧
      (∀ t, chainLookup (s.insertSeq l) l0' t = postingsOf l t ∪ chainLookup s l0 t) ∧
      (∀ t, memKey (s.insertSeq l) l0' t ↔ ((∃ e ∈ l, e.1 = t) ∨ memKey s l0 t)) := by
  induction l generalizing s l0 with
  | nil =>
    refine ⟨l0, h, ?_, ?_⟩
    · intro t
      show chainLookup s l0 t = postingsOf [] t ∪ chainLookup s l0 t
      rw [postingsOf, Finset.empty_union]
    · intro t
      show memKey s l0 t ↔ ((∃ e ∈ ([] : List (String × Nat × (Nat → ℚ))), e.1 = t) ∨
        memKey s l0 t)
      simp
  | cons e rest ih =>
    obtain ⟨l1, hwf1, hcl1, hmk1⟩ := insert_word_correct h e.1 e.2.1 e.2.2
    obtain ⟨l0', hwf', hcl', hmk'⟩ := ih hwf1
    refine ⟨l0', hwf', ?_, ?_⟩
    · intro t
      show chainLookup ((s.insert_word e.1 e.2.1 e.2.2).insertSeq rest) l0' t =
        postingsOf (e :: rest) t ∪ chainLookup s l0 t
      rw [hcl' t, hcl1 t]
      simp only [postingsOf]
      by_cases he : e.1 = t
      · rw [if_pos he.symm, if_pos he, Finset.union_insert, Finset.insert_union]
      · rw [if_neg (fun hh => he hh.symm), if_neg he]
    · intro t
      show memKey ((s.insert_word e.1 e.2.1 e.2.2).insertSeq rest) l0' t ↔
        ((∃ e' ∈ e :: rest, e'.1 = t) ∨ memKey s l0 t)
      rw [hmk' t, hmk1 t]
      constructor
      · rintro (⟨e', he', ht'⟩ | hh | hmem)
        · exact Or.inl ⟨e', List.mem_cons_of_mem _ he', ht'⟩
        · exact Or.inl ⟨e, List.mem_cons_self _ _, hh.symm⟩
        · exact Or.inr hmem
      · rintro (⟨e', he', ht'⟩ | hmem)
        · rcases List.mem_cons.mp he' with h1 | h2
          · subst h1
            exact Or.inr (Or.inl ht'.symm)
          · exact Or.inl ⟨e', h2, ht'⟩
        · exact Or.inr (Or.inr hmem)

theorem initSeq_correct (ml : Nat) (p : ℚ) (l : List (String × Nat × (Nat → ℚ))) :
    ∃ l0', WfWith ((SkipList.init ml p).insertSeq l) l0' ∧
      (∀ t, chainLookup ((SkipList.init ml p).insertSeq l) l0' t = postingsOf l t) ∧
      (∀ t, memKey ((SkipList.init ml p).insertSeq l) l0' t ↔ (∃ e ∈ l, e.1 = t)) := by
  obtain ⟨l0', hwf, hcl, hmk⟩ := insertSeq_correct (wfWith_init ml p) l
  refine ⟨l0', hwf, ?_, ?_⟩
  · intro t
    rw [hcl t]
    have hbase : chainLookup (SkipList.init ml p) [] t = ∅ := rfl
    rw [hbase, Finset.union_empty]
  · intro t
    rw [hmk t]
    simp [memKey]

/-! ### Reachable-state summaries -/

theorem searchSeq_eq (ml : Nat) (p : ℚ) (l : List (String × Nat × (Nat → ℚ)))
    (t : String) :
    ((SkipList.init ml p).insertSeq l).search_word t = postingsOf l t := by
  obtain ⟨l0', hwf, hcl, _⟩ := initSeq_correct ml p l
  rw [search_word_wf hwf t, hcl t]

theorem chainAt_wf {s : SkipList} {l0 : List Nat} (h : WfWith s l0) (lvl : Nat) :
    chainAt s lvl = levelChain s l0 lvl := by
  obtain ⟨h0, hrest⟩ := chainSeg_cons_inv (h.chains lvl)
  rw [chainAt]
  exact chainFrom_eq hrest (h.levelChain_len lvl)

theorem key_inj {s : SkipList} {l0 : List Nat} (h : WfWith s l0) {i j : Nat}
    (hi : i ∈ l0) (hj : j ∈ l0) (hk : keyD s i = keyD s j) : i = j := by
  by_contra hne
  have hsym : Symmetric (fun a b : Nat => keyD s a = keyD s b → a = b) := by
    intro a b hab he
    exact (hab he.symm).symm
  have hpw : l0.Pairwise (fun a b : Nat => keyD s a = keyD s b → a = b) := by
    refine h.sorted.imp ?_
    intro a b hab he
    rw [he] at hab
    exact absurd hab (lt_irrefl _)
  exact hne (List.Pairwise.forall hsym hpw hi hj hne hk)

theorem chainLookup_mem {s : SkipList} {l0 : List Nat} (h : WfWith s l0) {i : Nat}
    (hi : i ∈ l0) : chainLookup s l0 (keyD s i) = s.valueAt i := by
  rw [chainLookup]
  cases hf : l0.find? (fun j => decide (s.keyAt j = some (keyD s i))) with
  | none =>
    exfalso
    rw [List.find?_eq_none] at hf
    exact (hf i hi) (decide_eq_true (h.keyAt_mem hi))
  | some j =>
    have hj : j ∈ l0 := List.mem_of_find?_eq_some hf
    have hpj := List.find?_some hf
    simp only [decide_eq_true_eq] at hpj
    have hkj : s.keyAt j = some (keyD s i) := hpj
    have hkeq : keyD s j = keyD s i := by
      have hmem := h.keyAt_mem hj
      rw [hmem] at hkj
      exact Option.some.inj hkj
    have hij := key_inj h hj hi hkeq
    subst hij
    rfl

theorem mem_chainLookup {s : SkipList} {l0 : List Nat} (h : WfWith s l0) {t : String}
    {x : Nat} :
    x ∈ chainLookup s l0 t ↔ ∃ i ∈ l0, s.keyAt i = some t ∧ x ∈ s.valueAt i := by
  constructor
  · intro hx
    rw [chainLookup] at hx
    cases hf : l0.find? (fun j => decide (s.keyAt j = some t)) with
    | none =>
      rw [hf] at hx
      simp at hx
    | some j =>
      rw [hf] at hx
      have hpj := List.find?_some hf
      simp only [decide_eq_true_eq] at hpj
      exact ⟨j, List.mem_of_find?_eq_some hf, hpj, hx⟩
  · rintro ⟨i, hi, hik, hx⟩
    have ht : keyD s i = t := by
      have hmem := h.keyAt_mem hi
      rw [hmem] at hik
      exact Option.some.inj hik
    rw [← ht, chainLookup_mem h hi]
    exact hx

theorem mem_listUnion (s : SkipList) (l : List Nat) (x : Nat) :
    x ∈ listUnion s l ↔ ∃ i ∈ l, x ∈ s.valueAt i := by
  induction l with
  | nil => simp [listUnion]
  | cons a l ih => simp [listUnion, ih]

theorem mem_termsFinset (l : List (String × Nat × (Nat → ℚ))) (t : String) :
    t ∈ termsFinset l ↔ ∃ e ∈ l, e.1 = t := by
  induction l with
  | nil => simp [termsFinset]
  | cons e rest ih =>
    simp only [termsFinset, Finset.mem_insert, ih, List.mem_cons]
    constructor
    · rintro (h1 | ⟨e', he', ht'⟩)
      · exact ⟨e, Or.inl rfl, h1.symm⟩
      · exact ⟨e', Or.inr he', ht'⟩
    · rintro ⟨e', he' | he', ht'⟩
      · subst he'
        exact Or.inl ht'.symm
      · exact Or.inr ⟨e', he', ht'⟩

/-! ### The query loop -/

theorem search_loop_some (s : SkipList) :
    ∀ (ws : List String) (r : Finset Nat),
      search_loop s ws (some r) =
        some (List.foldl (fun acc w => acc ∩ s.search_word w) r (query_tokens ws)) := by
  intro ws
  induction ws with
  | nil => intro r; rfl
  | cons w ws ih =>
    intro r
    simp only [search_loop, query_tokens]
    by_cases hc : clean_word w = ""
    · rw [if_pos hc, if_pos hc]
      exact ih r
    · rw [if_neg hc, if_neg hc, List.foldl_cons]
      exact ih (r ∩ s.search_word (clean_word w))

theorem search_loop_none (s : SkipList) :
    ∀ ws : List String,
      search_loop s ws none =
        match query_tokens ws with
        | [] => none
        | t :: ts => some (List.foldl (fun acc w => acc ∩ s.search_word w)
            (s.search_word t) ts) := by
  intro ws
  induction ws with
  | nil => rfl
  | cons w ws ih =>
    simp only [search_loop, query_tokens]
    by_cases hc : clean_word w = ""
    · rw [if_pos hc, if_pos hc]
      exact ih
    · rw [if_neg hc, if_neg hc]
      exact search_loop_some s ws (s.search_word (clean_word w))

theorem IRS_search_eq (s : SkipList) (q : String) :
    IRS_search s q =
      match query_calls q with
      | [] => []
      | t :: ts => (List.foldl (fun acc w => acc ∩ s.search_word w)
          (s.search_word t) ts).sort (· ≤ ·) := by
  rw [IRS_search, search_loop_none, query_calls]
  cases query_tokens (py_split (lower_str q)) with
  | nil => rfl
  | cons t ts => rfl

theorem mem_foldl_inter (s : SkipList) :
    ∀ (ts : List String) (r : Finset Nat) (d : Nat),
      d ∈ List.foldl (fun acc w => acc ∩ s.search_word w) r ts ↔
        (d ∈ r ∧ ∀ t ∈ ts, d ∈ s.search_word t) := by
  intro ts
  induction ts with
  | nil =>
    intro r d
    simp
  | cons a ts ih =>
    intro r d
    rw [List.foldl_cons, ih, List.forall_mem_cons, Finset.mem_inter]
    tauto

theorem mem_foldl_head (s : SkipList) (t : String) (ts : List String) (d : Nat) :
    d ∈ List.foldl (fun acc w => acc ∩ s.search_word w) (s.search_word t) ts ↔
      ∀ x ∈ t :: ts, d ∈ s.search_word x := by
  rw [mem_foldl_inter, List.forall_mem_cons]

/-! ### Tokenization -/

theorem index_tokens_eq_query_tokens : ∀ ws : List String, index_tokens ws = query_tokens ws := by
  intro ws
  induction ws with
  | nil => rfl
  | cons w ws ih =>
    simp only [index_tokens, query_tokens]
    by_cases hc : clean_word w = ""
    · rw [if_pos hc, if_pos hc]
      exact ih
    · rw [if_neg hc, if_neg hc, ih]

theorem postingsOf_const (doc : Nat) :
    ∀ (l : List (String × Nat × (Nat → ℚ))), (∀ e ∈ l, e.2.1 = doc) →
      ∀ t, postingsOf l t = if (∃ e ∈ l, e.1 = t) then {doc} else ∅ := by
  intro l
  induction l with
  | nil =>
    intro _ t
    simp [postingsOf]
  | cons e rest ih =>
    intro hdoc t
    simp only [postingsOf]
    rw [ih (fun x hx => hdoc x (List.mem_cons_of_mem _ hx)) t]
    have hd : e.2.1 = doc := hdoc e (List.mem_cons_self _ _)
    by_cases he : e.1 = t
    · rw [if_pos he, hd]
      by_cases hr : ∃ e' ∈ rest, e'.1 = t
      · rw [if_pos hr, if_pos ⟨e, List.mem_cons_self _ _, he⟩]
        simp
      · rw [if_neg hr, if_pos ⟨e, List.mem_cons_self _ _, he⟩]
        simp
    · rw [if_neg he]
      by_cases hr : ∃ e' ∈ rest, e'.1 = t
      · obtain ⟨e', he', ht'⟩ := hr
        rw [if_pos ⟨e', he', ht'⟩, if_pos ⟨e', List.mem_cons_of_mem _ he', ht'⟩]
      · rw [if_neg hr, if_neg ?_]
        rintro ⟨e', he', ht'⟩
        rcases List.mem_cons.mp he' with h1 | h2
        · subst h1
          exact he ht'
        · exact hr ⟨e', h2, ht'⟩

theorem exists_enum_map {β : Type} (ws : List String) (doc : Nat) (f : Nat → β) (t : String) :
    (∃ e ∈ ws.enum.map (fun e => (e.2, doc, f e.1)), e.1 = t) ↔ t ∈ ws := by
  constructor
  · rintro ⟨e, he, ht⟩
    obtain ⟨x, hx, hfx⟩ := List.mem_map.mp he
    have : x.2 = t := by
      rw [← ht, ← hfx]
    rw [← this]
    have hx2 : x.2 ∈ (ws.enum).map Prod.snd := List.mem_map.mpr ⟨x, hx, rfl⟩
    rw [List.enum_map_snd] at hx2
    exact hx2
  · intro ht
    have : t ∈ (ws.enum).map Prod.snd := by
      rw [List.enum_map_snd]
      exact ht
    obtain ⟨x, hx, hfx⟩ := List.mem_map.mp this
    exact ⟨(x.2, doc, f x.1), List.mem_map.mpr ⟨x, hx, rfl⟩, hfx⟩

theorem index_document_lookup (ml : Nat) (p : ℚ) (doc : Nat) (content : String)
    (draws : Nat → Nat → ℚ) (t : String) :
    ((SkipList.init ml p).index_document doc content draws).search_word t =
      if t ∈ index_calls content then {doc} else ∅ := by
  rw [SkipList.index_document, searchSeq_eq]
  rw [postingsOf_const doc _ ?_ t]
  · by_cases hr : t ∈ index_calls content
    · rw [if_pos ((exists_enum_map (index_calls content) doc _ t).mpr hr), if_pos hr]
    · rw [if_neg ?_, if_neg hr]
      intro hc
      exact hr ((exists_enum_map (index_calls content) doc _ t).mp hc)
  · intro e he
    obtain ⟨x, _, hfx⟩ := List.mem_map.mp he
    rw [← hfx]

theorem index_document_distinct_lookup (ml : Nat) (p : ℚ) (doc : Nat) (content : String)
    (draws : Nat → Nat → ℚ) (t : String) :
    ((SkipList.init ml p).index_document_distinct doc content draws).search_word t =
      if t ∈ (index_calls content).dedup then {doc} else ∅ := by
  rw [SkipList.index_document_distinct, searchSeq_eq]
  rw [postingsOf_const doc _ ?_ t]
  · by_cases hr : t ∈ (index_calls content).dedup
    · rw [if_pos ((exists_enum_map ((index_calls content).dedup) doc _ t).mpr hr), if_pos hr]
    · rw [if_neg ?_, if_neg hr]
      intro hc
      exact hr ((exists_enum_map ((index_calls content).dedup) doc _ t).mp hc)
  · intro e he
    obtain ⟨x, _, hfx⟩ := List.mem_map.mp he
    rw [← hfx]

/-! ### Last helpers for the claims -/

theorem insertSeq_append (s : SkipList) (l1 l2 : List (String × Nat × (Nat → ℚ))) :
    s.insertSeq (l1 ++ l2) = (s.insertSeq l1).insertSeq l2 := by
  induction l1 generalizing s with
  | nil => rfl
  | cons e rest ih =>
    show (s.insert_word e.1 e.2.1 e.2.2).insertSeq (rest ++ l2) = _
    exact ih (s.insert_word e.1 e.2.1 e.2.2)

theorem postingsOf_append (l1 l2 : List (String × Nat × (Nat → ℚ))) (t : String) :
    postingsOf (l1 ++ l2) t = postingsOf l1 t ∪ postingsOf l2 t := by
  induction l1 with
  | nil => simp [postingsOf]
  | cons e rest ih =>
    show (if e.1 = t then insert e.2.1 (postingsOf (rest ++ l2) t)
        else postingsOf (rest ++ l2) t)
      = (if e.1 = t then insert e.2.1 (postingsOf rest t) else postingsOf rest t) ∪
        postingsOf l2 t
    by_cases he : e.1 = t
    · rw [if_pos he, if_pos he, ih, Finset.insert_union]
    · rw [if_neg he, if_neg he, ih]

theorem postingsOf_not_mem (l : List (String × Nat × (Nat → ℚ))) (t : String)
    (h : t ∉ termsFinset l) : postingsOf l t = ∅ := by
  induction l with
  | nil => rfl
  | cons e rest ih =>
    rw [termsFinset, Finset.mem_insert] at h
    push_neg at h
    rw [postingsOf, if_neg (fun he => h.1 he.symm)]
    exact ih h.2

theorem IRS_search_nil (s : SkipList) (q : String) (h : query_calls q = []) :
    IRS_search s q = [] := by
  rw [IRS_search_eq, h]

theorem IRS_search_cons (s : SkipList) (q t : String) (ts : List String)
    (h : query_calls q = t :: ts) :
    IRS_search s q =
      (List.foldl (fun acc w => acc ∩ s.search_word w) (s.search_word t) ts).sort (· ≤ ·) := by
  rw [IRS_search_eq, h]

theorem collectRange_inverted (s : SkipList) (lo hi : String) (h : hi < lo) :
    ∀ (fuel : Nat) (cur : Option Nat), collectRange s lo hi fuel cur = ∅ := by
  intro fuel
  induction fuel with
  | zero => intro cur; rfl
  | succ n ih =>
    intro cur
    cases cur with
    | none => rfl
    | some i =>
      show (match s.keyAt i with
        | none => ∅
        | some k =>
          if k ≤ hi then
            (if lo ≤ k then s.valueAt i else ∅) ∪ collectRange s lo hi n (s.fwd i 0)
          else ∅) = ∅
      cases hk : s.keyAt i with
      | none => rfl
      | some k =>
        show (if k ≤ hi then
            (if lo ≤ k then s.valueAt i else ∅) ∪ collectRange s lo hi n (s.fwd i 0)
          else ∅) = ∅
        by_cases hhi : k ≤ hi
        · rw [if_pos hhi, if_neg (fun hlo => absurd (lt_of_lt_of_le h (le_trans hlo hhi))
            (lt_irrefl hi)), ih (s.fwd i 0), Finset.empty_union]
        · rw [if_neg hhi]

/-! ### The claims -/

/-- C1: starting from the empty index, after any finite sequence of
`insert_word` calls, `search_word t` returns exactly the set of document ids
`d` for which `(t, d)` was inserted (`postingsOf`); in particular a term that
was never inserted yields the empty set.  `search_word` is a total function,
so no error can be raised. -/
theorem C1_lookup_correct (ml : Nat) (p : ℚ) (l : List (String × Nat × (Nat → ℚ)))
    (t : String) :
    ((SkipList.init ml p).insertSeq l).search_word t = postingsOf l t ∧
    (t ∉ termsFinset l → ((SkipList.init ml p).insertSeq l).search_word t = ∅) := by
  refine ⟨searchSeq_eq ml p l t, fun h => ?_⟩
  rw [searchSeq_eq, postingsOf_not_mem l t h]

/-- C2: for every query string and every index state, `search` returns the
ascending, duplicate-free sequence whose members are exactly the documents
lying in the postings of every cleaned query token; when cleaning leaves zero
usable tokens it returns the empty sequence; and the result is invariant under
permutation of the query's cleaned tokens. -/
theorem C2_resolve_and_query (s : SkipList) (q : String) :
    List.Sorted (· ≤ ·) (IRS_search s q) ∧
    (IRS_search s q).Nodup ∧
    (∀ d, d ∈ IRS_search s q ↔
      (query_calls q ≠ [] ∧ ∀ t ∈ query_calls q, d ∈ s.search_word t)) ∧
    (query_calls q = [] → IRS_search s q = []) ∧
    (∀ q' : String, (query_calls q').Perm (query_calls q) →
      IRS_search s q' = IRS_search s q) := by
  refine ⟨?_, ?_, ?_, IRS_search_nil s q, ?_⟩
  · cases hq : query_calls q with
    | nil => rw [IRS_search_nil s q hq]; exact List.sorted_nil
    | cons t ts => rw [IRS_search_cons s q t ts hq]; exact Finset.sort_sorted _ _
  · cases hq : query_calls q with
    | nil => rw [IRS_search_nil s q hq]; exact List.nodup_nil
    | cons t ts => rw [IRS_search_cons s q t ts hq]; exact Finset.sort_nodup _ _
  · intro d
    cases hq : query_calls q with
    | nil =>
      rw [IRS_search_nil s q hq]
      simp
    | cons t ts =>
      rw [IRS_search_cons s q t ts hq, Finset.mem_sort, mem_foldl_head]
      constructor
      · intro hall
        exact ⟨List.cons_ne_nil t ts, hall⟩
      · exact fun h => h.2
  · intro q' hperm
    cases hq : query_calls q with
    | nil =>
      rw [hq] at hperm
      rw [IRS_search_nil s q hq, IRS_search_nil s q' hperm.eq_nil]
    | cons t ts =>
      rw [hq] at hperm
      cases hq' : query_calls q' with
      | nil =>
        rw [hq'] at hperm
        exact absurd hperm.symm.eq_nil (List.cons_ne_nil t ts)
      | cons t' ts' =>
        rw [hq'] at hperm
        rw [IRS_search_cons s q t ts hq, IRS_search_cons s q' t' ts' hq']
        congr 1
        apply Finset.ext
        intro d
        rw [mem_foldl_head, mem_foldl_head]
        constructor
        · intro hall x hx
          exact hall x (hperm.mem_iff.mpr hx)
        · intro hall x hx
          exact hall x (hperm.mem_iff.mp hx)

/-- C3: in every state reachable by a sequence of inserts, a document lies in
`range_search lo hi` exactly when some inserted term `t` with `lo ≤ t ≤ hi`
has it in its postings: the range result is the union of `search_word t` over
the inserted terms of the interval. -/
theorem C3_range_correct (ml : Nat) (p : ℚ) (l : List (String × Nat × (Nat → ℚ)))
    (lo hi : String) (d : Nat) :
    d ∈ ((SkipList.init ml p).insertSeq l).range_search lo hi ↔
      ∃ t ∈ termsFinset l, (lo ≤ t ∧ t ≤ hi) ∧
        d ∈ ((SkipList.init ml p).insertSeq l).search_word t := by
  obtain ⟨l0, hwf, hcl, hmk⟩ := initSeq_correct ml p l
  rw [range_search_wf hwf lo hi, mem_listUnion]
  constructor
  · rintro ⟨i, hif, hdi⟩
    rw [List.mem_filter] at hif
    obtain ⟨hi0, hcond⟩ := hif
    simp only [Bool.and_eq_true, decide_eq_true_eq] at hcond
    refine ⟨keyD ((SkipList.init ml p).insertSeq l) i, ?_, hcond, ?_⟩
    · rw [mem_termsFinset]
      exact (hmk _).mp ⟨i, hi0, hwf.keyAt_mem hi0⟩
    · rw [search_word_wf hwf, chainLookup_mem hwf hi0]
      exact hdi
  · rintro ⟨t, htm, ⟨hlo, hhi⟩, hds⟩
    rw [search_word_wf hwf] at hds
    obtain ⟨i, hi0, hik, hdi⟩ := (mem_chainLookup hwf).mp hds
    have hkey : keyD ((SkipList.init ml p).insertSeq l) i = t := by
      rw [keyD, hik]
      rfl
    refine ⟨i, ?_, hdi⟩
    rw [List.mem_filter]
    refine ⟨hi0, ?_⟩
    simp only [Bool.and_eq_true, decide_eq_true_eq, hkey]
    exact ⟨hlo, hhi⟩

/-- C4: insert has set-union semantics on postings: from any reachable state,
inserting `(t, d1)` then `(t, d2)` makes `search_word t` the old postings plus
`{d1, d2}`, and inserting `(t, d1)` twice adds only `{d1}`; from the empty
index the two lookups are `{d1, d2}` and `{d1}` respectively. -/
theorem C4_insert_union_semantics (ml : Nat) (p : ℚ) (l : List (String × Nat × (Nat → ℚ)))
    (t : String) (d1 d2 : Nat) (dr1 dr2 : Nat → ℚ) :
    ((((SkipList.init ml p).insertSeq l).insert_word t d1 dr1).insert_word t d2 dr2).search_word t
      = postingsOf l t ∪ {d1, d2} ∧
    ((((SkipList.init ml p).insertSeq l).insert_word t d1 dr1).insert_word t d1 dr2).search_word t
      = postingsOf l t ∪ {d1} ∧
    (((SkipList.init ml p).insert_word t d1 dr1).insert_word t d2 dr2).search_word t
      = {d1, d2} ∧
    (((SkipList.init ml p).insert_word t d1 dr1).insert_word t d1 dr2).search_word t
      = {d1} := by
  have key : ∀ (a b : Nat) (e1 e2 : Nat → ℚ),
      ((((SkipList.init ml p).insertSeq l).insert_word t a e1).insert_word t b e2).search_word t
        = postingsOf l t ∪ {a, b} := by
    intro a b e1 e2
    have h1 : (((SkipList.init ml p).insertSeq l).insert_word t a e1).insert_word t b e2
        = (SkipList.init ml p).insertSeq (l ++ [(t, a, e1), (t, b, e2)]) := by
      rw [insertSeq_append]
      rfl
    rw [h1, searchSeq_eq, postingsOf_append]
    congr 1
    simp [postingsOf]
  have key0 : ∀ (a b : Nat) (e1 e2 : Nat → ℚ),
      (((SkipList.init ml p).insert_word t a e1).insert_word t b e2).search_word t
        = ({a, b} : Finset Nat) := by
    intro a b e1 e2
    have h2 : ((SkipList.init ml p).insert_word t a e1).insert_word t b e2
        = (SkipList.init ml p).insertSeq [(t, a, e1), (t, b, e2)] := rfl
    rw [h2, searchSeq_eq]
    simp [postingsOf]
  refine ⟨key d1 d2 dr1 dr2, ?_, key0 d1 d2 dr1 dr2, ?_⟩
  · rw [key d1 d1 dr1 dr2]
    simp
  · rw [key0 d1 d1 dr1 dr2]
    simp

/-- C5: corrected — `SkipList.__init__` performs no validation: every
configuration over the source's `int`-typed `max_level`, including
`probability` outside `(0, 1)` and `max_level < 1`, is accepted silently with
its values stored as given, so the spec's ConfigurationError does not exist in
the code.  With `max_level ≥ 0` the resulting empty index is well formed and
insert and lookup work normally even for invalid probabilities; with
`max_level < 0` construction still succeeds, but the header's forward array is
empty and the first forward access of any search errors — the source raises
`IndexError` on first use, never at construction. -/
theorem C5_construction_unvalidated (ml : Int) (p : ℚ) :
    (SkipListI.initI ml p).max_level = ml ∧
    (SkipListI.initI ml p).probability = p ∧
    (0 ≤ ml →
      (SkipListI.initI ml p).nodes = (SkipList.init ml.toNat p).nodes ∧
      Wf (SkipList.init ml.toNat p) ∧
      (∀ w, (SkipListI.initI ml p).search_wordE w = Except.ok ∅) ∧
      (∀ t, (SkipList.init ml.toNat p).search_word t = ∅) ∧
      (∀ t d dr, ((SkipList.init ml.toNat p).insert_word t d dr).search_word t = {d})) ∧
    (ml < 0 → ∀ w, (SkipListI.initI ml p).search_wordE w = Except.error ()) := by
  refine ⟨rfl, rfl, fun hml => ⟨?_, ⟨[], wfWith_init ml.toNat p⟩, fun w => ?_,
    fun t => searchSeq_eq ml.toNat p [] t, fun t d dr => ?_⟩, fun hneg w => ?_⟩
  · have h1 : (ml + 1).toNat = ml.toNat + 1 := by omega
    show [({ key := none, forward := List.replicate (ml + 1).toNat none, value := ∅ } : SkipListNode)] = [({ key := none, forward := List.replicate (ml.toNat + 1) none, value := ∅ } : SkipListNode)]
    rw [h1]
  · have h1 : (ml + 1).toNat = ml.toNat + 1 := by omega
    have hf : fwdE (SkipListI.initI ml p).nodes 0 0 = Except.ok none := by
      show fwdE [{ key := none, forward := List.replicate (ml + 1).toNat none, value := ∅ }] 0 0
        = Except.ok none
      rw [h1]
      show (if 0 < (List.replicate (ml.toNat + 1) (none : Option Nat)).length then
          Except.ok ((List.replicate (ml.toNat + 1) (none : Option Nat)).getD 0 none)
        else Except.error ()) = Except.ok none
      rw [if_pos]
      · rw [replicate_getD_none]
      · simp
    have hsd : searchDescendE (SkipListI.initI ml p).nodes w 0 0 = Except.ok 0 := by
      show (match fwdE (SkipListI.initI ml p).nodes 0 0 with
        | Except.error e => Except.error e
        | Except.ok none => Except.ok 0
        | Except.ok (some nxt) =>
          match keyL (SkipListI.initI ml p).nodes nxt with
          | none => Except.ok 0
          | some k =>
            if k < w then advanceE (SkipListI.initI ml p).nodes 0 w 0 nxt else Except.ok 0)
        = Except.ok 0
      rw [hf]
    show (match searchDescendE (SkipListI.initI ml p).nodes w 0 0 with
      | Except.error e => Except.error e
      | Except.ok cur =>
        match fwdE (SkipListI.initI ml p).nodes cur 0 with
        | Except.error e => Except.error e
        | Except.ok none => Except.ok ∅
        | Except.ok (some nxt) =>
          if keyL (SkipListI.initI ml p).nodes nxt = some w then
            Except.ok (valueL (SkipListI.initI ml p).nodes nxt)
          else Except.ok ∅)
      = Except.ok ∅
    rw [hsd]
    show (match fwdE (SkipListI.initI ml p).nodes 0 0 with
      | Except.error e => Except.error e
      | Except.ok none => Except.ok ∅
      | Except.ok (some nxt) =>
        if keyL (SkipListI.initI ml p).nodes nxt = some w then
          Except.ok (valueL (SkipListI.initI ml p).nodes nxt)
        else Except.ok ∅)
      = Except.ok ∅
    rw [hf]
  · have h : (SkipList.init ml.toNat p).insert_word t d dr
        = (SkipList.init ml.toNat p).insertSeq [(t, d, dr)] := rfl
    rw [h, searchSeq_eq]
    simp [postingsOf]
  · have h0 : (ml + 1).toNat = 0 := by omega
    show SkipListI.search_wordE
      { max_level := ml, probability := p,
        nodes := [{ key := none, forward := List.replicate (ml + 1).toNat none, value := ∅ }],
        level := 0 } w = Except.error ()
    rw [h0]
    rfl

/-- The configuration `max_level = 0`, `probability = 2` violates both of the
spec's validity conditions, yet construction accepts it and the resulting
index inserts and finds words normally: construction never fails. -/
theorem C5_counterexample :
    Wf (SkipList.init 0 2) ∧
    (SkipList.init 0 2).max_level = 0 ∧
    (SkipList.init 0 2).probability = 2 ∧
    ((SkipList.init 0 2).insert_word "a" 5 (fun _ => 0)).search_word "a" = {5} := by
  refine ⟨⟨[], wfWith_init 0 2⟩, rfl, rfl, ?_⟩
  have h : (SkipList.init 0 2).insert_word "a" 5 (fun _ => 0)
      = (SkipList.init 0 2).insertSeq [("a", 5, fun _ => 0)] := rfl
  rw [h, searchSeq_eq]
  simp [postingsOf]

/-- C6: corrected — `load_documents` calls `insert_word` once per occurrence
of each cleaned token (the call list is `index_calls content`, not its
deduplication); the resulting lookups nevertheless agree with the
deduplicating indexer the spec describes. -/
theorem C6_insert_per_occurrence (ml : Nat) (p : ℚ) (doc : Nat) (content : String)
    (draws drawsD : Nat → Nat → ℚ) (t : String) :
    ((SkipList.init ml p).index_document doc content draws).search_word t =
      (if t ∈ index_calls content then ({doc} : Finset Nat) else ∅) ∧
    ((SkipList.init ml p).index_document doc content draws).search_word t =
      ((SkipList.init ml p).index_document_distinct doc content drawsD).search_word t := by
  refine ⟨index_document_lookup ml p doc content draws t, ?_⟩
  rw [index_document_lookup, index_document_distinct_lookup]
  by_cases hm : t ∈ index_calls content
  · rw [if_pos hm, if_pos (List.mem_dedup.mpr hm)]
  · rw [if_neg hm, if_neg (fun hc => hm (List.mem_dedup.mp hc))]

/-- The document text "a a" has one distinct cleaned token but produces two
`insert_word` calls: the call list `index_calls "a a"` is `["a", "a"]`, of
length two, while its deduplication is `["a"]` — the code does not
deduplicate before inserting. -/
theorem C6_counterexample :
    index_calls "a a" = ["a", "a"] ∧
    (index_calls "a a").length = 2 ∧
    (index_calls "a a").dedup = ["a"] :=
  ⟨rfl, rfl, by decide⟩

/-- C7: sortedness invariant — in every state reachable by a sequence of
inserts from the empty index, at every level, the forward chain walked from
the header carries strictly increasing keys. -/
theorem C7_sortedness_invariant (ml : Nat) (p : ℚ) (l : List (String × Nat × (Nat → ℚ)))
    (lvl : Nat) :
    List.Pairwise
      (fun a b => keyD ((SkipList.init ml p).insertSeq l) a <
        keyD ((SkipList.init ml p).insertSeq l) b)
      (chainAt ((SkipList.init ml p).insertSeq l) lvl) := by
  obtain ⟨l0, hwf, -, -⟩ := initSeq_correct ml p l
  rw [chainAt_wf hwf]
  exact hwf.sorted_levelChain lvl

/-- C8: level-containment invariant — in every reachable state, every node on
the forward chain of a level is also on the forward chain of every lower
level. -/
theorem C8_level_containment (ml : Nat) (p : ℚ) (l : List (String × Nat × (Nat → ℚ)))
    (k d : Nat) :
    chainAt ((SkipList.init ml p).insertSeq l) (k + d) ⊆
      chainAt ((SkipList.init ml p).insertSeq l) k := by
  obtain ⟨l0, hwf, -, -⟩ := initSeq_correct ml p l
  intro i hi
  rw [chainAt_wf hwf] at hi ⊢
  exact levelChain_mem_le (Nat.le_add_right k d) hi

/-- C9: the tokenizer applied while indexing is extensionally equal to the
tokenizer applied while querying, so indexing a document whose raw text is
"Bat-Man!" as document 0 and then searching "batman" returns `[0]`. -/
theorem C9_tokenization_shared (ml : Nat) (p : ℚ) (draws : Nat → Nat → ℚ)
    (ws : List String) :
    index_tokens ws = query_tokens ws ∧
    (∀ content : String, index_calls content = query_calls content) ∧
    IRS_search ((SkipList.init ml p).index_document 0 "Bat-Man!" draws) "batman" = [0] := by
  refine ⟨index_tokens_eq_query_tokens ws, fun content => ?_, ?_⟩
  · rw [index_calls, query_calls, index_tokens_eq_query_tokens]
  · have hq : query_calls "batman" = ["batman"] := rfl
    rw [IRS_search_cons ((SkipList.init ml p).index_document 0 "Bat-Man!" draws)
      "batman" "batman" [] hq, List.foldl_nil]
    have hs : ((SkipList.init ml p).index_document 0 "Bat-Man!" draws).search_word "batman"
        = {0} := by
      rw [index_document_lookup]
      rw [if_pos (by decide : ("batman" : String) ∈ index_calls "Bat-Man!")]
    rw [hs]
    simp

/-- C10: for every index state, a range query with `hi < lo` returns the empty
set: the collection loop never admits a key `k` with `lo ≤ k` and `k ≤ hi`,
and no error is raised. -/
theorem C10_inverted_range_empty (s : SkipList) (lo hi : String) (h : hi < lo) :
    s.range_search lo hi = ∅ := by
  show collectRange s lo hi s.nodes.length (s.fwd (searchDescend s lo 0 s.level) 0) = ∅
  exact collectRange_inverted s lo hi h s.nodes.length _

theorem C10_witness :
    ("a" : String) < "b" ∧ (SkipList.init 16 (1 / 2)).range_search "b" "a" = ∅ := by
  have hlt : ("a" : String) < "b" := by
    rw [String.lt_iff_toList_lt]
    decide
  exact ⟨hlt, C10_inverted_range_empty (SkipList.init 16 (1 / 2)) "b" "a" hlt⟩
